import Mathlib

/-!
Verification of the music-theory core of the guitar-fretboard app
(`script.js`): note arithmetic, chord-name parsing, CAGED voicing
generation, progression parsing, and the dynamic-programming progression
optimizer.  JavaScript numbers are modelled by `ℤ` where the program only
ever holds integers (frets, string numbers, pitch-class indices) and by
`ℚ` where it divides (average fret, movement costs); JavaScript's `null`
returns are modelled by `Option`.  The global `state.useFlats` flag is
passed explicitly as a `flats : Bool` parameter.
-/

-- Batteries marks rational arithmetic `irreducible`, which blocks `decide`
-- on concrete rational values; restore the ordinary reducibility so that
-- concrete runs of the embedded program can be evaluated by the kernel.
set_option allowUnsafeReducibility true in
attribute [semireducible] Rat.add Rat.mul Rat.sub Rat.neg Rat.inv Rat.div

/-! ## Note model (`NOTE_NAMES`, `OPEN_STRING_NOTES`, `getNoteIndex`,
`getNoteAtPosition`) -/

/-- `NOTE_NAMES = ['C', 'C#', ..., 'B']`. -/
def NOTE_NAMES : List String :=
  ["C", "C#", "D", "D#", "E", "F", ("F#" : String), "G", "G#", "A", "A#", "B"]

/-- `OPEN_STRING_NOTES`: open-string pitch class per string number 1–6.
A key outside 1–6 is never looked up by the functions verified here; the
catch-all value 0 stands for JavaScript's `undefined`. -/
def OPEN_STRING_NOTES (stringNum : ℤ) : ℤ :=
  if stringNum = 6 then 4
  else if stringNum = 5 then 9
  else if stringNum = 4 then 2
  else if stringNum = 3 then 7
  else if stringNum = 2 then 11
  else if stringNum = 1 then 4
  else 0

/-- The `noteMap` table of `getNoteIndex`. -/
def noteMap : List (String × ℤ) :=
  [("C", 0), ("C#", 1), ("Db", 1), ("D", 2), ("D#", 3), ("Eb", 3),
   ("E", 4), ("F", 5), ("F#", 6), ("Gb", 6), ("G", 7), ("G#", 8),
   ("Ab", 8), ("A", 9), ("A#", 10), ("Bb", 10), ("B", 11)]

/-- `getNoteIndex`: semitone index of a note name, `-1` when unknown
(`noteMap[noteName] ?? -1`). -/
def getNoteIndex (noteName : String) : ℤ :=
  (noteMap.lookup noteName).getD (-1)

/-- The `flatMap` table inside `getNoteAtPosition`. -/
def flatMap : List (String × String) :=
  [("C#", "Db"), ("D#", "Eb"), ("F#", "Gb"), ("G#", "Ab"), ("A#", "Bb")]

/-- `getNoteAtPosition(stringNum, fretNum)`; `flats` is `state.useFlats`. -/
def getNoteAtPosition (flats : Bool) (stringNum fretNum : ℤ) : String :=
  let noteIndex := (OPEN_STRING_NOTES stringNum + fretNum) % 12
  let noteName := NOTE_NAMES.getD noteIndex.toNat ""
  if flats && noteName.toList.contains '#' then
    (flatMap.lookup noteName).getD noteName
  else noteName

/-! ## JavaScript string primitives

`String.prototype.trim`, regex `\s`, the regex `.` (which does not match a
line terminator), case folding for the `i` flag (ASCII range), anchored
(`^pat`) and unanchored (`pat`) regex alternatives. -/

/-- A character the regex class `\s` (and `trim`) recognises; the exotic
Unicode space characters are never produced by the app's inputs and are
left out. -/
def jsWhitespace (c : Char) : Bool :=
  c = ' ' || c = '\t' || c = '\n' || c = '\r' || c = '\x0b' || c = '\x0c'

/-- A JavaScript line terminator: regex `.` never matches one. -/
def isLineTerminator (c : Char) : Bool :=
  c = '\n' || c = '\r' || c.toNat = 0x2028 || c.toNat = 0x2029

/-- `String.prototype.trim`. -/
def jsTrim (s : String) : String :=
  (((s.toList.dropWhile (fun c => jsWhitespace c)).reverse.dropWhile
      (fun c => jsWhitespace c)).reverse).asString

/-- ASCII lower-casing of one character (JS regex `i`-flag folding for the
ASCII patterns used by the parser). -/
def lowerChar (c : Char) : Char :=
  if 'A' ≤ c ∧ c ≤ 'Z' then Char.ofNat (c.toNat + 32) else c

/-- Case-sensitive anchored test `^pre`. -/
def csPrefix (pre : String) (s : List Char) : Bool :=
  pre.toList.isPrefixOf s

/-- Case-insensitive anchored test `/^pre/i` (ASCII folding). -/
def ciPrefix (pre : String) (s : List Char) : Bool :=
  (pre.toList.map lowerChar).isPrefixOf (s.map lowerChar)

/-- Unanchored (substring) test for a case-sensitive pattern. -/
def hasInfix (pat : String) : List Char → Bool
  | [] => pat.toList.isEmpty
  | c :: cs => pat.toList.isPrefixOf (c :: cs) || hasInfix pat cs

/-- Split a character list at every occurrence of `sep`
(JavaScript `String.prototype.split` with a single-character separator). -/
def splitOnChar (sep : Char) : List Char → List (List Char)
  | [] => [[]]
  | c :: cs =>
    if c = sep then [] :: splitOnChar sep cs
    else
      match splitOnChar sep cs with
      | [] => [[c]]
      | t :: ts => (c :: t) :: ts

/-! ## Chord-name parser (`parseChordName`) -/

/-- The result object of `parseChordName`. -/
structure ChordSymbol where
  root : String
  quality : String
  bass : Option String
deriving DecidableEq, Repr

/-- `[A-Ga-g]`: a root letter in either case. -/
def isRootLetter (c : Char) : Bool :=
  ('A' ≤ c ∧ c ≤ 'G') || ('a' ≤ c ∧ c ≤ 'g')

/-- The ordered `qualityPatterns` rule table of `parseChordName`: each rule
is the test the source's regex performs on the quality segment, paired with
the quality it assigns.  Anchored alternatives become prefix tests,
unanchored ones (`-7` and `-` in the `m7`/`minor` rules) substring tests;
rules whose regex carries the `i` flag fold case.  The two-byte sequences
`Ã¸`, `Î”`, `Â°` appear verbatim in the source file. -/
def qualityPatterns : List ((List Char → Bool) × String) :=
  [(fun s => ciPrefix "m7b5" s || ciPrefix "min7b5" s || ciPrefix "Ã¸" s, "m7b5"),
   (fun s => ciPrefix "mmaj7" s || ciPrefix "minmaj7" s, "mMaj7"),
   (fun s => csPrefix "m7" s || csPrefix "min7" s || hasInfix "-7" s, "m7"),
   (fun s => csPrefix "m9" s || csPrefix "min9" s, "m9"),
   (fun s => csPrefix "m6" s || csPrefix "min6" s, "m6"),
   (fun s => csPrefix "m" s || csPrefix "min" s || hasInfix "-" s, "minor"),
   (fun s => csPrefix "maj7" s || csPrefix "M7" s || csPrefix "Î”7" s, "maj7"),
   (fun s => csPrefix "maj9" s || csPrefix "M9" s, "maj9"),
   (fun s => ciPrefix "dim7" s || ciPrefix "Â°7" s, "dim7"),
   (fun s => ciPrefix "aug7" s || ciPrefix "+7" s, "aug7"),
   (fun s => ciPrefix "7sus4" s, "7sus4"),
   (fun s => ciPrefix "add9" s, "add9"),
   (fun s => ciPrefix "sus2" s, "sus2"),
   (fun s => ciPrefix "sus4" s || ciPrefix "sus" s, "sus4"),
   (fun s => ciPrefix "dim" s || ciPrefix "Â°" s, "dim"),
   (fun s => ciPrefix "aug" s || ciPrefix "+" s, "aug"),
   (fun s => ciPrefix "9" s, "9"),
   (fun s => ciPrefix "7" s, "7"),
   (fun s => ciPrefix "6" s, "6")]

/-- The quality-classification loop: first matching rule wins, default
`'major'`. -/
def classifyQuality (qualityPart : List Char) : String :=
  match qualityPatterns.find? (fun r => r.1 qualityPart) with
  | some r => r.2
  | none => "major"

/-- `parseChordName`.  The anchored regex
`^([A-Ga-g])([#b]?)(.*)$` requires one root letter, an optional single
accidental, and a remainder free of line terminators (the semantics of the regex dot);
on failure the function returns `null`, modelled as `none`. -/
def parseChordName (chordName : String) : Option ChordSymbol :=
  if chordName = "" then none
  else
    match (jsTrim chordName).toList with
    | [] => none
    | c :: rest =>
      if isRootLetter c && rest.all (fun ch => !(isLineTerminator ch)) then
        let acc :=
          match rest with
          | a :: rs => if a = '#' || a = 'b' then ([a], rs) else ([], rest)
          | [] => (([] : List Char), ([] : List Char))
        let bassSplit :=
          if acc.2.contains '/' then
            match splitOnChar '/' acc.2 with
            | p0 :: p1 :: _ => (p0, some p1.asString)
            | _ => (acc.2, none)
          else (acc.2, none)
        some { root := (c.toUpper :: acc.1).asString,
               quality := classifyQuality bassSplit.1,
               bass := bassSplit.2 }
      else none

/-! ## Chord tones (`CHORD_INTERVALS`, `getChordNotes`) -/

/-- `CHORD_INTERVALS`. -/
def CHORD_INTERVALS : List (String × List ℤ) :=
  [("major", [0, 4, 7]), ("minor", [0, 3, 7]), ("dim", [0, 3, 6]),
   ("aug", [0, 4, 8]),
   ("maj7", [0, 4, 7, 11]), ("7", [0, 4, 7, 10]), ("m7", [0, 3, 7, 10]),
   ("dim7", [0, 3, 6, 9]), ("m7b5", [0, 3, 6, 10]), ("mMaj7", [0, 3, 7, 11]),
   ("aug7", [0, 4, 8, 10]),
   ("9", [0, 4, 7, 10, 14]), ("maj9", [0, 4, 7, 11, 14]),
   ("m9", [0, 3, 7, 10, 14]), ("add9", [0, 4, 7, 14]),
   ("6", [0, 4, 7, 9]), ("m6", [0, 3, 7, 9]),
   ("sus2", [0, 2, 7]), ("sus4", [0, 5, 7]), ("7sus4", [0, 5, 7, 10])]

/-- `getChordNotes(root, quality)`. -/
def getChordNotes (root quality : String) : List String :=
  match CHORD_INTERVALS.lookup quality with
  | none => []
  | some intervals =>
    let rootIndex := getNoteIndex root
    if rootIndex = -1 then []
    else intervals.map (fun interval => NOTE_NAMES.getD ((rootIndex + interval) % 12).toNat "")

example : parseChordName "F#maj7" = some ⟨"F#", "minor", none⟩ := by decide

example : parseChordName "Am" = some ⟨"A", "minor", none⟩ := by decide

example : parseChordName "C/G" = some ⟨"C", "major", some "G"⟩ := by decide

example : parseChordName "xab" = none := by decide

example : parseChordName " C " = some ⟨"C", "major", none⟩ := by decide

example : getChordNotes "F#" "maj7" = ["F#", "A#", "C#", "F"] := by decide

/-! ## Shape library and single-voicing resolver (`CHORD_SHAPES`,
`findChordShape`, `shapeToPositions`) -/

/-- One entry of `CHORD_SHAPES`: per-string frets from string 6 down to
string 1, `-1` meaning muted. -/
structure BShape where
  strings : List ℤ
  rootString : ℤ
  baseFret : ℤ
deriving DecidableEq, Repr

/-- The static `CHORD_SHAPES` table. -/
def CHORD_SHAPES : List (String × BShape) :=
  [("E_major", ⟨[0, 2, 2, 1, 0, 0], 6, 0⟩),
   ("E_minor", ⟨[0, 2, 2, 0, 0, 0], 6, 0⟩),
   ("A_major", ⟨[-1, 0, 2, 2, 2, 0], 5, 0⟩),
   ("A_minor", ⟨[-1, 0, 2, 2, 1, 0], 5, 0⟩),
   ("D_major", ⟨[-1, -1, 0, 2, 3, 2], 4, 0⟩),
   ("D_minor", ⟨[-1, -1, 0, 2, 3, 1], 4, 0⟩),
   ("C_major", ⟨[-1, 3, 2, 0, 1, 0], 5, 0⟩),
   ("G_major", ⟨[3, 2, 0, 0, 0, 3], 6, 0⟩),
   ("E_7", ⟨[0, 2, 0, 1, 0, 0], 6, 0⟩),
   ("E_m7", ⟨[0, 2, 0, 0, 0, 0], 6, 0⟩),
   ("E_maj7", ⟨[0, 2, 1, 1, 0, 0], 6, 0⟩),
   ("A_7", ⟨[-1, 0, 2, 0, 2, 0], 5, 0⟩),
   ("A_m7", ⟨[-1, 0, 2, 0, 1, 0], 5, 0⟩),
   ("A_maj7", ⟨[-1, 0, 2, 1, 2, 0], 5, 0⟩),
   ("D_7", ⟨[-1, -1, 0, 2, 1, 2], 4, 0⟩),
   ("D_m7", ⟨[-1, -1, 0, 2, 1, 1], 4, 0⟩),
   ("barre_E_major", ⟨[0, 2, 2, 1, 0, 0], 6, 0⟩),
   ("barre_E_minor", ⟨[0, 2, 2, 0, 0, 0], 6, 0⟩),
   ("barre_A_major", ⟨[-1, 0, 2, 2, 2, 0], 5, 0⟩),
   ("barre_A_minor", ⟨[-1, 0, 2, 2, 1, 0], 5, 0⟩)]

/-- A shape as returned by `findChordShape`: a `CHORD_SHAPES` entry
together with the transpose the caller must apply
(`{ ...shape, transpose }`). -/
structure ShapeWithTranspose where
  strings : List ℤ
  rootString : ℤ
  baseFret : ℤ
  transpose : ℤ
deriving DecidableEq, Repr

/-- The `qualityToShape` map inside `findChordShape`
(`qualityToShape[quality] || quality`). -/
def qualityToShape (quality : String) : String :=
  (([("major", "major"), ("minor", "minor"), ("7", "7"),
     ("m7", "m7"), ("maj7", "maj7")] : List (String × String)).lookup
      quality).getD quality

/-- The barre branch of `findChordShape`: pick the E-shape when
`transposedFromE <= 7`, otherwise the A-shape, falling back to the major
template when the quality has no entry. -/
def findChordShapeBarre (rootIndex : ℤ) (shapeQuality : String) :
    Option ShapeWithTranspose :=
  let eRootIndex := getNoteIndex "E"
  let aRootIndex := getNoteIndex "A"
  let transposedFromE := (rootIndex - eRootIndex + 12) % 12
  let transposedFromA := (rootIndex - aRootIndex + 12) % 12
  if transposedFromE ≤ 7 then
    match (CHORD_SHAPES.lookup ("E_" ++ shapeQuality)).orElse
        (fun _ => CHORD_SHAPES.lookup "E_major") with
    | some s => some ⟨s.strings, s.rootString, s.baseFret, transposedFromE⟩
    | none => none
  else
    match (CHORD_SHAPES.lookup ("A_" ++ shapeQuality)).orElse
        (fun _ => CHORD_SHAPES.lookup "A_major") with
    | some s => some ⟨s.strings, s.rootString, s.baseFret, transposedFromA⟩
    | none => none

/-- `findChordShape(root, quality)`. -/
def findChordShape (root quality : String) : Option ShapeWithTranspose :=
  let rootIndex := getNoteIndex root
  let shapeQuality := qualityToShape quality
  let openChords := ["E", "A", "D", "G", "C"]
  if openChords.contains root then
    match CHORD_SHAPES.lookup (root ++ "_" ++ shapeQuality) with
    | some s => some ⟨s.strings, s.rootString, s.baseFret, 0⟩
    | none => findChordShapeBarre rootIndex shapeQuality
  else findChordShapeBarre rootIndex shapeQuality

/-- A fretboard position `{string, fret, isRoot}`. -/
structure Position where
  string : ℤ
  fret : ℤ
  isRoot : Bool
deriving DecidableEq, Repr

/-- The `forEach` body of `shapeToPositions`, walking the six per-string
entries with their array index (string number `6 - index`). -/
def shapeToPositionsAux (flats : Bool) (root : String) (transpose : ℤ) :
    List ℤ → ℤ → List Position
  | [], _ => []
  | fret :: rest, idx =>
    let tail := shapeToPositionsAux flats root transpose rest (idx + 1)
    if 0 ≤ fret then
      let stringNum := 6 - idx
      let actualFret := fret + transpose
      let noteAtPosition := getNoteAtPosition flats stringNum actualFret
      let isRoot := noteAtPosition == root ||
        (decide (1 < root.length) && (getNoteIndex noteAtPosition == getNoteIndex root))
      { string := stringNum, fret := actualFret, isRoot := isRoot } :: tail
    else tail

/-- `shapeToPositions(shape, root)`; `flats` is `state.useFlats`. -/
def shapeToPositions (flats : Bool) (shape : ShapeWithTranspose) (root : String) :
    List Position :=
  shapeToPositionsAux flats root shape.transpose shape.strings 0

/-! ## Exhaustive voicing generator (`CAGED_SHAPES`,
`generateAllVoicings`) -/

/-- One CAGED template: per-string frets (string 6 first, `-1` muted), the
root string/fret, and the display name. -/
structure CShape where
  strings : List ℤ
  rootString : ℤ
  rootFret : ℤ
  name : String
deriving DecidableEq, Repr

/-- The `CAGED_SHAPES` table.  The iteration order of
`Object.entries` is the order of the object literal: E, A, D, C, G. -/
def CAGED_SHAPES : List (String × List (String × CShape)) :=
  [("E",
    [("major", ⟨[0, 2, 2, 1, 0, 0], 6, 0, "E-shape"⟩),
     ("minor", ⟨[0, 2, 2, 0, 0, 0], 6, 0, "E-shape"⟩),
     ("7", ⟨[0, 2, 0, 1, 0, 0], 6, 0, "E-shape"⟩),
     ("m7", ⟨[0, 2, 0, 0, 0, 0], 6, 0, "E-shape"⟩),
     ("maj7", ⟨[0, 2, 1, 1, 0, 0], 6, 0, "E-shape"⟩)]),
   ("A",
    [("major", ⟨[-1, 0, 2, 2, 2, 0], 5, 0, "A-shape"⟩),
     ("minor", ⟨[-1, 0, 2, 2, 1, 0], 5, 0, "A-shape"⟩),
     ("7", ⟨[-1, 0, 2, 0, 2, 0], 5, 0, "A-shape"⟩),
     ("m7", ⟨[-1, 0, 2, 0, 1, 0], 5, 0, "A-shape"⟩),
     ("maj7", ⟨[-1, 0, 2, 1, 2, 0], 5, 0, "A-shape"⟩)]),
   ("D",
    [("major", ⟨[-1, -1, 0, 2, 3, 2], 4, 0, "D-shape"⟩),
     ("minor", ⟨[-1, -1, 0, 2, 3, 1], 4, 0, "D-shape"⟩),
     ("7", ⟨[-1, -1, 0, 2, 1, 2], 4, 0, "D-shape"⟩),
     ("m7", ⟨[-1, -1, 0, 2, 1, 1], 4, 0, "D-shape"⟩),
     ("maj7", ⟨[-1, -1, 0, 2, 2, 2], 4, 0, "D-shape"⟩)]),
   ("C",
    [("major", ⟨[-1, 3, 2, 0, 1, 0], 5, 3, "C-shape"⟩),
     ("minor", ⟨[-1, 3, 1, 0, 1, -1], 5, 3, "C-shape"⟩),
     ("7", ⟨[-1, 3, 2, 3, 1, 0], 5, 3, "C-shape"⟩),
     ("m7", ⟨[-1, 3, 1, 3, 1, -1], 5, 3, "C-shape"⟩),
     ("maj7", ⟨[-1, 3, 2, 0, 0, 0], 5, 3, "C-shape"⟩)]),
   ("G",
    [("major", ⟨[3, 2, 0, 0, 0, 3], 6, 3, "G-shape"⟩),
     ("minor", ⟨[3, 1, 0, 0, 3, 3], 6, 3, "G-shape"⟩),
     ("7", ⟨[3, 2, 0, 0, 0, 1], 6, 3, "G-shape"⟩),
     ("m7", ⟨[3, 1, 0, 0, 3, 1], 6, 3, "G-shape"⟩),
     ("maj7", ⟨[3, 2, 0, 0, 0, 2], 6, 3, "G-shape"⟩)])]

/-- The `qualityMap` table of `generateAllVoicings`. -/
def qualityMap : List (String × String) :=
  [("major", "major"), ("minor", "minor"), ("7", "7"), ("m7", "m7"),
   ("maj7", "maj7"), ("dim", "minor"), ("aug", "major"),
   ("sus4", "major"), ("sus2", "major")]

/-- The shape quality used by `generateAllVoicings`
(`qualityMap[quality] || 'major'`). -/
def shapeQualityOf (quality : String) : String :=
  (qualityMap.lookup quality).getD "major"

/-- `baseNoteIndex` selection inside the CAGED loop; the table only holds
the five keys below, so the catch-all 0 is unreachable. -/
def shapeBaseNoteIndex (shapeName : String) : ℤ :=
  if shapeName = "E" then getNoteIndex "E"
  else if shapeName = "A" then getNoteIndex "A"
  else if shapeName = "D" then getNoteIndex "D"
  else if shapeName = "C" then getNoteIndex "C"
  else if shapeName = "G" then getNoteIndex "G"
  else 0

/-- A generated voicing with its summary statistics. -/
structure Voicing where
  chordName : String
  shapeName : String
  positions : List Position
  baseFret : ℤ
  avgFret : ℚ
  fretSpan : ℤ
deriving DecidableEq, Repr

/-- The `forEach` over a CAGED template inside `generateAllVoicings`:
build the transposed positions in string order 6 → 1 and record whether
every non-muted string stayed within `maxFret` (`validVoicing`).  A string
whose transposed fret exceeds `maxFret` contributes no position but later
strings still do, exactly as the early `return` inside `forEach` behaves. -/
def buildPositions (flats : Bool) (rootIndex transpose maxFret : ℤ) :
    List ℤ → ℤ → List Position × Bool
  | [], _ => ([], true)
  | fret :: rest, idx =>
    if 0 ≤ fret then
      if maxFret < fret + transpose then
        ((buildPositions flats rootIndex transpose maxFret rest (idx + 1)).1,
         false)
      else
        ({ string := 6 - idx, fret := fret + transpose,
           isRoot := getNoteIndex (getNoteAtPosition flats (6 - idx)
             (fret + transpose)) == rootIndex } ::
           (buildPositions flats rootIndex transpose maxFret rest (idx + 1)).1,
         (buildPositions flats rootIndex transpose maxFret rest (idx + 1)).2)
    else buildPositions flats rootIndex transpose maxFret rest (idx + 1)

/-- The body of the CAGED loop of `generateAllVoicings` for one shape:
`none` when the voicing is discarded (`validVoicing` false or fewer than 3
positions).  `avgFret` is the exact rational mean of the sounded frets;
`baseFret` / `fretSpan` use the minimum and maximum over the positive
frets, 0 when there is none (`minFret === Infinity` in the source). -/
def voicingForShape (flats : Bool) (chordName : String) (rootIndex maxFret : ℤ)
    (shapeName : String) (shape : CShape) : Option Voicing :=
  let baseNoteIndex := shapeBaseNoteIndex shapeName
  let transpose := (rootIndex - baseNoteIndex + 12) % 12
  let built := buildPositions flats rootIndex transpose maxFret shape.strings 0
  let positions := built.1
  if built.2 && decide (3 ≤ positions.length) then
    let frets := positions.map (fun p => p.fret)
    let positive := frets.filter (fun f => 0 < f)
    let minFret := match positive with
      | [] => none
      | f :: fs => some (fs.foldl min f)
    let maxFretUsed := positive.foldl max 0
    some { chordName := chordName,
           shapeName := shape.name,
           positions := positions,
           baseFret := minFret.getD 0,
           avgFret := Rat.divInt frets.sum positions.length,
           fretSpan := maxFretUsed - minFret.getD 0 }
  else none

/-- `generateAllVoicings(chordName, maxFret = 15)`.  The final
`Array.prototype.sort` with comparator `a.avgFret - b.avgFret` is a stable
ascending sort, modelled by insertion sort on `avgFret <=`. -/
def generateAllVoicings (flats : Bool) (chordName : String) (maxFret : ℤ) :
    List Voicing :=
  match parseChordName chordName with
  | none => []
  | some parsed =>
    let rootIndex := getNoteIndex parsed.root
    let shapeQuality := shapeQualityOf parsed.quality
    let voicings := CAGED_SHAPES.filterMap (fun entry =>
      match entry.2.lookup shapeQuality with
      | none => none
      | some shape => voicingForShape flats chordName rootIndex maxFret entry.1 shape)
    voicings.insertionSort (fun a b => a.avgFret ≤ b.avgFret)

example :
    (generateAllVoicings false "C" 15).map (fun v => v.shapeName) =
      ["C-shape", "A-shape", "G-shape", "E-shape", "D-shape"] := by decide

/-! ## Movement cost and progression optimizer (`calculateMovementCost`,
`optimizeProgression`) -/

/-- `calculateMovementCost(voicing1, voicing2)` (the literal `0.5` is the
rational 1/2). -/
def calculateMovementCost (voicing1 voicing2 : Voicing) : ℚ :=
  let fretDiff := |voicing1.avgFret - voicing2.avgFret|
  let spanDiff := |(voicing1.fretSpan : ℚ) - (voicing2.fretSpan : ℚ)|
  let shapeBonus : ℚ := if voicing1.shapeName = voicing2.shapeName then -1 else 0
  fretDiff * 2 + spanDiff * (1 / 2) + shapeBonus

/-- The candidate layers of `optimizeProgression`: per chord, the voicings
(default `maxFret` 15) filtered to the preferred fret window, the whole
unfiltered list when the window is empty.  (The source performs the
filter in the initial `map` and replaces empty entries in a second loop;
the result is the same list.) -/
def candidateLayers (flats : Bool) (chordNames : List String)
    (preferredFret fretRange : ℚ) : List (List Voicing) :=
  chordNames.map (fun chord =>
    let voicings := generateAllVoicings flats chord 15
    let filtered := voicings.filter (fun v =>
      decide (preferredFret - fretRange ≤ v.avgFret) &&
      decide (v.avgFret ≤ preferredFret + fretRange))
    if filtered.isEmpty then voicings else filtered)

/-- One DP cell: the minimal cost found so far for a voicing of the
current layer, with the path attaining it stored reversed (current voicing
first, then its predecessors).  The source stores a `prev` index per cell
and rebuilds the path by backtracking from the cheapest final cell;
carrying the path itself is the pure rendering of that bookkeeping and
reproduces the same list, tie for tie, because both keep the first
strictly-cheaper candidate.  `Infinity` is `⊤`. -/
abbrev DPCell := WithTop ℚ × Voicing × List Voicing

/-- Layer-0 initialisation: `dp[0][i].cost = |avgFret - preferredFret|`. -/
def dpInit (preferredFret : ℚ) (layer : List Voicing) : List DPCell :=
  layer.map (fun v => (((|v.avgFret - preferredFret| : ℚ) : WithTop ℚ), v, []))

/-- One DP layer: for each candidate, the minimum over the previous layer
of predecessor cost plus movement cost, scanning predecessors in order and
keeping the first strict improvement. -/
def dpStep (prev : List DPCell) (layer : List Voicing) : List DPCell :=
  layer.map (fun v =>
    prev.foldl (fun acc cell =>
      let total := cell.1 + ((calculateMovementCost cell.2.1 v : ℚ) : WithTop ℚ)
      if total < acc.1 then (total, v, cell.2.1 :: cell.2.2) else acc)
      ((⊤ : WithTop ℚ), v, []))

/-- `optimizeProgression(chordNames, {preferredFret = 5, fretRange = 7})`.
A chord whose candidate list is empty makes the source throw (`reduce` of
an empty array for a single chord, an out-of-range index dereference
during backtracking otherwise); those runs are modelled as `none`. -/
def optimizeProgression (flats : Bool) (chordNames : List String)
    (preferredFret fretRange : ℚ) : Option (List Voicing) :=
  if chordNames.length = 0 then some []
  else
    let allVoicings := candidateLayers flats chordNames preferredFret fretRange
    if chordNames.length = 1 then
      match allVoicings.headD [] with
      | [] => none
      | v :: vs =>
        some [vs.foldl (fun best w =>
          if |w.avgFret - preferredFret| < |best.avgFret - preferredFret| then w
          else best) v]
    else
      if allVoicings.any (fun l => l.isEmpty) then none
      else
        match allVoicings with
        | [] => some []
        | first :: restLayers =>
          match restLayers.foldl dpStep (dpInit preferredFret first) with
          | [] => none
          | c :: cs =>
            let best := cs.foldl (fun b cell => if cell.1 < b.1 then cell else b) c
            some ((best.2.1 :: best.2.2).reverse)

/-! ## Progression parser (`parseProgression`) -/

/-- A character of the regex class `[,\\-]`. -/
def isSepChar (c : Char) : Bool := c = ',' || c = '-'

/-- Scanner state for the splits: scanning a token, inside a comma/hyphen
run, or inside a whitespace run. -/
inductive SplitState where
  | normal
  | inSep
  | inWs
deriving DecidableEq, Repr

/-- `String.prototype.split(/[,\\-]+|\\s{2,}/)` as a single-pass scanner: a
run of commas/hyphens, or a run of at least two whitespace characters,
separates tokens (the alternation tries the comma/hyphen branch first at
each position, both quantifiers are greedy, and a leading or trailing
separator yields an empty token as in JavaScript). -/
def splitPrimaryAux : SplitState → List Char → List Char → List String
  | _, [], cur => [cur.reverse.asString]
  | .normal, c :: cs, cur =>
    if isSepChar c then cur.reverse.asString :: splitPrimaryAux .inSep cs []
    else if jsWhitespace c &&
        (match cs with | c2 :: _ => jsWhitespace c2 | [] => false) then
      cur.reverse.asString :: splitPrimaryAux .inWs cs []
    else splitPrimaryAux .normal cs (c :: cur)
  | .inSep, c :: cs, cur =>
    if isSepChar c then splitPrimaryAux .inSep cs cur
    else if jsWhitespace c &&
        (match cs with | c2 :: _ => jsWhitespace c2 | [] => false) then
      cur.reverse.asString :: splitPrimaryAux .inWs cs []
    else splitPrimaryAux .normal cs (c :: cur)
  | .inWs, c :: cs, cur =>
    if jsWhitespace c then splitPrimaryAux .inWs cs cur
    else if isSepChar c then
      cur.reverse.asString :: splitPrimaryAux .inSep cs []
    else splitPrimaryAux .normal cs (c :: cur)

/-- The primary split of `parseProgression`. -/
def splitPrimary (s : String) : List String :=
  splitPrimaryAux .normal s.toList []

/-- `String.prototype.split(/\\s+/)`: any whitespace run separates; the
`Bool` records being inside a run. -/
def splitWSAux : Bool → List Char → List Char → List String
  | _, [], cur => [cur.reverse.asString]
  | false, c :: cs, cur =>
    if jsWhitespace c then cur.reverse.asString :: splitWSAux true cs []
    else splitWSAux false cs (c :: cur)
  | true, c :: cs, cur =>
    if jsWhitespace c then splitWSAux true cs cur
    else splitWSAux false cs (c :: cur)

/-- The retry split `input.trim().split(/\s+/)`. -/
def splitWS (s : String) : List String := splitWSAux false s.toList []

/-- `parseProgression(input)`. -/
def parseProgression (input : String) : List String :=
  if input = "" then []
  else
    let parts := ((splitPrimary input).map jsTrim).filter (fun s => s ≠ "")
    if parts.length = 1 then
      let spaceParts := splitWS (jsTrim input)
      if decide (1 < spaceParts.length) &&
          spaceParts.all (fun p => (parseChordName p).isSome) then
        spaceParts
      else parts.filter (fun p => (parseChordName p).isSome)
    else parts.filter (fun p => (parseChordName p).isSome)

example : parseProgression "Am, C, G" = ["Am", "C", "G"] := by decide

example : parseProgression "Am - C - G" = ["Am", "C", "G"] := by decide

example : parseProgression "xx, yy" = [] := by decide

example : parseProgression "Am C G" = ["Am", "C", "G"] := by decide

example : (optimizeProgression false ["C"] 5 7).isSome = true := by decide

example : (optimizeProgression false ["C", "G"] 5 7).map (fun l => l.length) =
    some 2 := by decide

/-! ## Helper lemmas -/

theorem lookup_mem_pairs {β : Type} (l : List (String × β)) (k : String) (v : β)
    (h : l.lookup k = some v) : (k, v) ∈ l := by
  induction l with
  | nil => simp [List.lookup] at h
  | cons p es ih =>
    obtain ⟨a, b⟩ := p
    rw [List.lookup_cons] at h
    cases hk : (k == a) with
    | true =>
      rw [hk] at h
      simp only [if_true] at h
      cases h
      have : k = a := by simpa using hk
      subst this
      exact List.mem_cons_self _ _
    | false =>
      rw [hk] at h
      simp only [Bool.false_eq_true, if_false] at h
      exact List.mem_cons_of_mem _ (ih h)

/-! ## Claim C2 (code bug): `parseChordName("F#maj7")` -/

/-- C2: the claim (and the spec) state that `parseChordName "F#maj7"`
returns quality `maj7`.  The code disagrees: the minor rule (anchored `m` / `min` alternatives plus an unanchored hyphen)
is tested before the `maj7` rule and already matches the leading `m` of
`maj7`, so the quality comes out `minor`; the dedicated `^maj7`
alternative is unreachable for its own lower-case spelling.  The second
half of the claim (the tones of `getChordNotes("F#", "maj7")` via offsets
[0,4,7,11] from pitch class 6, spelled through the sharp table) does hold.
This theorem evaluates the code at the failing input. -/
theorem C2_maj7_shadowed_by_minor_rule :
    parseChordName "F#maj7" = some ⟨"F#", "minor", none⟩ ∧
    getChordNotes "F#" "maj7" = ["F#", "A#", "C#", "F"] := by decide

/-! ## Claim C3 (corrected): the `qualityMap` approximation -/

/-- C3 counterexample: the claim says the diminished quality maps to
`major` and the minor-flavored unsupported qualities (such as `m9`) map to
`minor`.  On the code, `dim` maps to `minor` (an explicit `qualityMap`
entry) and `m9` falls through to the `major` default. -/
theorem C3_counterexample_dim_maps_to_minor :
    parseChordName "Cdim" = some ⟨"C", "dim", none⟩ ∧
    shapeQualityOf "dim" = "minor" ∧
    parseChordName "Cm9" = some ⟨"C", "m9", none⟩ ∧
    shapeQualityOf "m9" = "major" := by decide

/-- C3 amended: inside `generateAllVoicings`, every parsed quality outside
the supported set {major, minor, 7, m7, maj7} is mapped onto {major,
minor} before shape lookup — `dim` onto `minor`; `aug`, `sus2`, `sus4` and
every other unsupported quality (the minor-flavored `m9`, `m6`, `m7b5`,
`mMaj7` included) onto `major`. -/
theorem C3_unsupported_quality_approximation (q : String)
    (h : q ∉ (["major", "minor", "7", "m7", "maj7"] : List String)) :
    shapeQualityOf q = if q = "dim" then "minor" else "major" := by
  simp only [List.mem_cons, List.not_mem_nil, or_false, not_or] at h
  obtain ⟨h1, h2, h3, h4, h5⟩ := h
  rcases eq_or_ne q "dim" with rfl | hdim
  · decide
  · rw [if_neg hdim]
    unfold shapeQualityOf
    rcases hl : qualityMap.lookup q with _ | v
    · simp [hl]
    · have hmem := lookup_mem_pairs _ _ _ hl
      simp only [qualityMap, List.mem_cons, Prod.mk.injEq, List.not_mem_nil,
        or_false] at hmem
      obtain hmem | hmem | hmem | hmem | hmem | hmem | hmem | hmem | hmem :=
        hmem <;> obtain ⟨rfl, rfl⟩ := hmem <;> simp_all [hl]

/-- C3 witness: the amended statement at the concrete quality `m9`. -/
theorem C3_witness_m9 :
    shapeQualityOf "m9" = if "m9" = "dim" then "minor" else "major" :=
  C3_unsupported_quality_approximation "m9" (by decide)

/-! ## Claim C4 (corrected): barre-template selection -/

/-- C4 counterexample: at root A# the distance from A (1 semitone) is
strictly smaller than the distance from E (6 semitones), so the claim
demands the A-shape with transpose 1; the code tests only
`transposedFromE <= 7` and returns the E-shape template
`[0, 2, 2, 1, 0, 0]` with transpose 6. -/
theorem C4_counterexample_Asharp_picks_E_shape :
    ((getNoteIndex "A#" - getNoteIndex "A" + 12) % 12 <
      (getNoteIndex "A#" - getNoteIndex "E" + 12) % 12) ∧
    findChordShape "A#" "major" = some ⟨[0, 2, 2, 1, 0, 0], 6, 0, 6⟩ := by
  decide

/-! ## Claim C7: `parseProgression` -/

/-- C7: `parseProgression` on the three specified inputs, a retry-accepted
single-space input, a retry-rejected input that keeps the single token,
and — for every input — the guarantee that every returned token parses as
a valid chord. -/
theorem C7_parseProgression_behaviour :
    parseProgression "Am, C, G" = ["Am", "C", "G"] ∧
    parseProgression "Am - C - G" = ["Am", "C", "G"] ∧
    parseProgression "xx, yy" = [] ∧
    parseProgression "Am C G" = ["Am", "C", "G"] ∧
    parseProgression "Am xx" = ["Am xx"] ∧
    ∀ input t, t ∈ parseProgression input → (parseChordName t).isSome = true := by
  refine ⟨by decide, by decide, by decide, by decide, by decide, ?_⟩
  intro input t ht
  unfold parseProgression at ht
  by_cases h0 : input = ""
  · simp [h0] at ht
  · rw [if_neg h0] at ht
    simp only at ht
    split at ht
    · split at ht
      · rename_i hcond
        simp only [Bool.and_eq_true] at hcond
        exact List.all_eq_true.mp hcond.2 t ht
      · exact (List.mem_filter.mp ht).2
    · exact (List.mem_filter.mp ht).2

/-- C7 witness: the universally quantified part of the claim applied at a
concrete progression and token. -/
theorem C7_witness_token_parses :
    (parseChordName "Am").isSome = true :=
  C7_parseProgression_behaviour.2.2.2.2.2 "Am, C, G" "Am" (by decide)

/-! ## Claim C8 (corrected): totality of the parser -/

/-- C8 counterexample: the claim says `parseChordName` returns null
exactly when the trimmed input is empty or does not begin with a root
letter.  The input "C\nC" is non-empty after trimming and begins with the
root letter C, yet the parser returns null: the anchored regex
`^([A-Ga-g])([#b]?)(.*)$` cannot match across the embedded line
terminator because `.` does not match one. -/
theorem C8_counterexample_newline :
    parseChordName "C\nC" = none ∧
    jsTrim "C\nC" ≠ "" ∧
    isRootLetter ((jsTrim "C\nC").toList.headD ' ') = true := by decide

/-! ## Lemmas about `buildPositions` and `generateAllVoicings` -/

theorem getNoteIndex_getNoteAtPosition (flats : Bool) (s f : ℤ) :
    getNoteIndex (getNoteAtPosition flats s f) = (OPEN_STRING_NOTES s + f) % 12 := by
  have h0 : 0 ≤ (OPEN_STRING_NOTES s + f) % 12 :=
    Int.emod_nonneg _ (by norm_num)
  have h12 : (OPEN_STRING_NOTES s + f) % 12 < 12 :=
    Int.emod_lt_of_pos _ (by norm_num)
  simp only [getNoteAtPosition]
  generalize hg : (OPEN_STRING_NOTES s + f) % 12 = k at h0 h12 ⊢
  interval_cases k <;> cases flats <;> decide

theorem buildPositions_cons (flats : Bool) (ri t mF f : ℤ) (rest : List ℤ)
    (idx : ℤ) (ps : List Position) (ok : Bool)
    (hb : buildPositions flats ri t mF rest (idx + 1) = (ps, ok)) :
    buildPositions flats ri t mF (f :: rest) idx =
      if 0 ≤ f then
        if mF < f + t then (ps, false)
        else ({ string := 6 - idx, fret := f + t,
                isRoot := getNoteIndex (getNoteAtPosition flats (6 - idx)
                  (f + t)) == ri } :: ps, ok)
      else (ps, ok) := by
  rw [buildPositions, hb]

theorem buildPositions_length_le (flats : Bool) (ri t mF : ℤ) :
    ∀ (l : List ℤ) (idx : ℤ),
      ((buildPositions flats ri t mF l idx).1).length ≤ l.length := by
  intro l
  induction l with
  | nil => intro idx; simp [buildPositions]
  | cons f rest ih =>
    intro idx
    rcases hb : buildPositions flats ri t mF rest (idx + 1) with ⟨ps, ok⟩
    have hlen : ps.length ≤ rest.length := by
      have := ih (idx + 1)
      rw [hb] at this
      exact this
    rw [buildPositions_cons flats ri t mF f rest idx ps ok hb]
    by_cases h1 : 0 ≤ f
    · by_cases h2 : mF < f + t
      · rw [if_pos h1, if_pos h2]
        simpa using Nat.le_succ_of_le hlen
      · rw [if_pos h1, if_neg h2]
        simpa using Nat.succ_le_succ hlen
    · rw [if_neg h1]
      simpa using Nat.le_succ_of_le hlen

theorem buildPositions_string_bounds (flats : Bool) (ri t mF : ℤ) :
    ∀ (l : List ℤ) (idx : ℤ), ∀ p ∈ (buildPositions flats ri t mF l idx).1,
      6 - idx - l.length < p.string ∧ p.string ≤ 6 - idx := by
  intro l
  induction l with
  | nil => intro idx p hp; simp [buildPositions] at hp
  | cons f rest ih =>
    intro idx p hp
    rcases hb : buildPositions flats ri t mF rest (idx + 1) with ⟨ps, ok⟩
    have htail : ∀ q ∈ ps, 6 - (idx + 1) - rest.length < q.string ∧
        q.string ≤ 6 - (idx + 1) := by
      intro q hq
      have := ih (idx + 1) q
      rw [hb] at this
      exact this hq
    rw [buildPositions_cons flats ri t mF f rest idx ps ok hb] at hp
    have hlen : ((f :: rest).length : ℤ) = (rest.length : ℤ) + 1 := by
      push_cast [List.length_cons]; ring
    rw [hlen]
    by_cases h1 : 0 ≤ f
    · by_cases h2 : mF < f + t
      · rw [if_pos h1, if_pos h2] at hp
        replace hp : p ∈ ps := hp
        rcases htail p hp with ⟨hl, hr⟩
        constructor <;> omega
      · rw [if_pos h1, if_neg h2] at hp
        rcases List.mem_cons.mp hp with rfl | hmem
        · constructor
          · dsimp only
            have h0 : (0 : ℤ) ≤ rest.length := by positivity
            omega
          · dsimp only
            omega
        · rcases htail p hmem with ⟨hl, hr⟩
          constructor <;> omega
    · rw [if_neg h1] at hp
      replace hp : p ∈ ps := hp
      rcases htail p hp with ⟨hl, hr⟩
      constructor <;> omega

theorem buildPositions_pairwise (flats : Bool) (ri t mF : ℤ) :
    ∀ (l : List ℤ) (idx : ℤ),
      ((buildPositions flats ri t mF l idx).1).Pairwise
        (fun p q => q.string < p.string) := by
  intro l
  induction l with
  | nil => intro idx; simp [buildPositions]
  | cons f rest ih =>
    intro idx
    rcases hb : buildPositions flats ri t mF rest (idx + 1) with ⟨ps, ok⟩
    have htail : ps.Pairwise (fun p q => q.string < p.string) := by
      have := ih (idx + 1)
      rw [hb] at this
      exact this
    rw [buildPositions_cons flats ri t mF f rest idx ps ok hb]
    by_cases h1 : 0 ≤ f
    · by_cases h2 : mF < f + t
      · rw [if_pos h1, if_pos h2]
        exact htail
      · rw [if_pos h1, if_neg h2]
        refine List.Pairwise.cons ?_ htail
        intro q hq
        have hq2 := buildPositions_string_bounds flats ri t mF rest (idx + 1) q
        rw [hb] at hq2
        have := (hq2 hq).2
        dsimp only
        omega
    · rw [if_neg h1]
      exact htail

theorem buildPositions_valid_bounds (flats : Bool) (ri t mF : ℤ) (ht : 0 ≤ t) :
    ∀ (l : List ℤ) (idx : ℤ), (buildPositions flats ri t mF l idx).2 = true →
      ∀ p ∈ (buildPositions flats ri t mF l idx).1,
        0 ≤ p.fret ∧ p.fret ≤ mF := by
  intro l
  induction l with
  | nil => intro idx _ p hp; simp [buildPositions] at hp
  | cons f rest ih =>
    intro idx hv p hp
    rcases hb : buildPositions flats ri t mF rest (idx + 1) with ⟨ps, ok⟩
    have htail : ok = true → ∀ q ∈ ps, 0 ≤ q.fret ∧ q.fret ≤ mF := by
      intro hok q hq
      have := ih (idx + 1)
      rw [hb] at this
      exact this hok q hq
    rw [buildPositions_cons flats ri t mF f rest idx ps ok hb] at hv hp
    by_cases h1 : 0 ≤ f
    · by_cases h2 : mF < f + t
      · rw [if_pos h1, if_pos h2] at hv
        exact absurd hv Bool.false_ne_true
      · rw [if_pos h1, if_neg h2] at hv hp
        replace hv : ok = true := hv
        rcases List.mem_cons.mp hp with rfl | hmem
        · dsimp only
          constructor <;> omega
        · exact htail hv p hmem
    · rw [if_neg h1] at hv hp
      exact htail hv p hp

theorem buildPositions_invalid (flats : Bool) (ri t mF : ℤ) :
    ∀ (l : List ℤ) (idx : ℤ), (∃ f ∈ l, 0 ≤ f ∧ mF < f + t) →
      (buildPositions flats ri t mF l idx).2 = false := by
  intro l
  induction l with
  | nil => intro idx h; simp at h
  | cons f rest ih =>
    intro idx h
    rcases hb : buildPositions flats ri t mF rest (idx + 1) with ⟨ps, ok⟩
    rw [buildPositions_cons flats ri t mF f rest idx ps ok hb]
    rcases h with ⟨g, hg, hg0, hgm⟩
    rcases List.mem_cons.mp hg with rfl | hmem
    · rw [if_pos hg0, if_pos hgm]
    · have htail : ok = false := by
        have := ih (idx + 1) ⟨g, hmem, hg0, hgm⟩
        rw [hb] at this
        exact this
      by_cases h1 : 0 ≤ f
      · by_cases h2 : mF < f + t
        · rw [if_pos h1, if_pos h2]
        · rw [if_pos h1, if_neg h2]
          exact htail
      · rw [if_neg h1]
        exact htail

theorem buildPositions_frets_of_valid (flats : Bool) (ri t mF : ℤ) :
    ∀ (l : List ℤ) (idx : ℤ), (buildPositions flats ri t mF l idx).2 = true →
      ((buildPositions flats ri t mF l idx).1).map (fun p => p.fret) =
        (l.filter (fun f => decide (0 ≤ f))).map (fun f => f + t) := by
  intro l
  induction l with
  | nil => intro idx _; simp [buildPositions]
  | cons f rest ih =>
    intro idx hv
    rcases hb : buildPositions flats ri t mF rest (idx + 1) with ⟨ps, ok⟩
    have htail : ok = true → ps.map (fun p => p.fret) =
        (rest.filter (fun f => decide (0 ≤ f))).map (fun f => f + t) := by
      intro hok
      have := ih (idx + 1)
      rw [hb] at this
      exact this hok
    rw [buildPositions_cons flats ri t mF f rest idx ps ok hb] at hv ⊢
    by_cases h1 : 0 ≤ f
    · by_cases h2 : mF < f + t
      · rw [if_pos h1, if_pos h2] at hv
        exact absurd hv Bool.false_ne_true
      · rw [if_pos h1, if_neg h2] at hv ⊢
        replace hv : ok = true := hv
        rw [List.filter_cons, if_pos (by simpa using h1), List.map_cons,
          List.map_cons, htail hv]
    · rw [if_neg h1] at hv ⊢
      replace hv : ok = true := hv
      rw [List.filter_cons, if_neg (by simpa using h1)]
      exact htail hv

theorem buildPositions_isRoot (flats : Bool) (ri t mF : ℤ) :
    ∀ (l : List ℤ) (idx : ℤ), ∀ p ∈ (buildPositions flats ri t mF l idx).1,
      (p.isRoot = true ↔ (OPEN_STRING_NOTES p.string + p.fret) % 12 = ri) := by
  intro l
  induction l with
  | nil => intro idx p hp; simp [buildPositions] at hp
  | cons f rest ih =>
    intro idx p hp
    rcases hb : buildPositions flats ri t mF rest (idx + 1) with ⟨ps, ok⟩
    have htail : ∀ q ∈ ps,
        (q.isRoot = true ↔ (OPEN_STRING_NOTES q.string + q.fret) % 12 = ri) := by
      intro q hq
      have := ih (idx + 1) q
      rw [hb] at this
      exact this hq
    rw [buildPositions_cons flats ri t mF f rest idx ps ok hb] at hp
    by_cases h1 : 0 ≤ f
    · by_cases h2 : mF < f + t
      · rw [if_pos h1, if_pos h2] at hp
        exact htail p hp
      · rw [if_pos h1, if_neg h2] at hp
        rcases List.mem_cons.mp hp with rfl | hmem
        · dsimp only
          rw [getNoteIndex_getNoteAtPosition]
          exact beq_iff_eq
        · exact htail p hmem
    · rw [if_neg h1] at hp
      exact htail p hp

theorem buildPositions_flats_agnostic (ri t mF : ℤ) :
    ∀ (l : List ℤ) (idx : ℤ) (fl₁ fl₂ : Bool),
      buildPositions fl₁ ri t mF l idx = buildPositions fl₂ ri t mF l idx := by
  intro l
  induction l with
  | nil => intro idx fl₁ fl₂; simp [buildPositions]
  | cons f rest ih =>
    intro idx fl₁ fl₂
    rcases hb : buildPositions fl₂ ri t mF rest (idx + 1) with ⟨ps, ok⟩
    have hb₁ : buildPositions fl₁ ri t mF rest (idx + 1) = (ps, ok) := by
      rw [ih (idx + 1) fl₁ fl₂, hb]
    rw [buildPositions_cons fl₁ ri t mF f rest idx ps ok hb₁,
      buildPositions_cons fl₂ ri t mF f rest idx ps ok hb]
    have hnote : getNoteIndex (getNoteAtPosition fl₁ (6 - idx) (f + t)) =
        getNoteIndex (getNoteAtPosition fl₂ (6 - idx) (f + t)) := by
      rw [getNoteIndex_getNoteAtPosition, getNoteIndex_getNoteAtPosition]
    rw [hnote]

/-- Membership in `generateAllVoicings`, unfolded to the CAGED entry that
produced the voicing. -/
theorem mem_generateAllVoicings {flats : Bool} {name : String} {maxF : ℤ}
    {v : Voicing} :
    v ∈ generateAllVoicings flats name maxF ↔
      ∃ parsed, parseChordName name = some parsed ∧
        ∃ entry ∈ CAGED_SHAPES, ∃ shape,
          entry.2.lookup (shapeQualityOf parsed.quality) = some shape ∧
          voicingForShape flats name (getNoteIndex parsed.root) maxF entry.1
            shape = some v := by
  unfold generateAllVoicings
  cases hp : parseChordName name with
  | none => simp
  | some parsed =>
    simp only [List.mem_insertionSort, List.mem_filterMap, Option.some.injEq]
    constructor
    · rintro ⟨entry, hentry, hsome⟩
      refine ⟨parsed, rfl, entry, hentry, ?_⟩
      cases hl : entry.2.lookup (shapeQualityOf parsed.quality) with
      | none => rw [hl] at hsome; simp at hsome
      | some shape =>
        rw [hl] at hsome
        exact ⟨shape, rfl, hsome⟩
    · rintro ⟨parsed₂, hp₂, entry, hentry, shape, hl, hv⟩
      subst hp₂
      exact ⟨entry, hentry, by rw [hl]; exact hv⟩

/-- Every CAGED template has six per-string entries. -/
theorem caged_strings_length :
    ∀ entry ∈ CAGED_SHAPES, ∀ pr ∈ entry.2, (pr.2).strings.length = 6 := by
  decide

/-- The fields of a voicing produced by `voicingForShape`. -/
theorem voicingForShape_some {flats : Bool} {name : String} {ri maxF : ℤ}
    {shapeName : String} {shape : CShape} {v : Voicing}
    (h : voicingForShape flats name ri maxF shapeName shape = some v) :
    v.positions =
      (buildPositions flats ri ((ri - shapeBaseNoteIndex shapeName + 12) % 12)
        maxF shape.strings 0).1 ∧
    (buildPositions flats ri ((ri - shapeBaseNoteIndex shapeName + 12) % 12)
        maxF shape.strings 0).2 = true ∧
    3 ≤ v.positions.length ∧
    v.shapeName = shape.name ∧
    v.avgFret = Rat.divInt ((v.positions.map (fun p => p.fret)).sum)
        v.positions.length := by
  simp only [voicingForShape] at h
  split_ifs at h with hcond
  · simp only [Option.some.injEq] at h
    subst h
    simp only [Bool.and_eq_true, decide_eq_true_eq] at hcond
    exact ⟨rfl, hcond.1, hcond.2, rfl, rfl⟩

theorem voicingForShape_flats_agnostic (name : String) (ri maxF : ℤ)
    (shapeName : String) (shape : CShape) (fl₁ fl₂ : Bool) :
    voicingForShape fl₁ name ri maxF shapeName shape =
      voicingForShape fl₂ name ri maxF shapeName shape := by
  simp only [voicingForShape]
  rw [buildPositions_flats_agnostic ri
    ((ri - shapeBaseNoteIndex shapeName + 12) % 12) maxF shape.strings 0 fl₁ fl₂]

theorem generateAllVoicings_flats_agnostic (name : String) (maxF : ℤ)
    (fl₁ fl₂ : Bool) :
    generateAllVoicings fl₁ name maxF = generateAllVoicings fl₂ name maxF := by
  simp only [generateAllVoicings]
  cases hp : parseChordName name with
  | none => rfl
  | some parsed =>
    dsimp only
    have hfun : ∀ entry ∈ CAGED_SHAPES,
        (match entry.2.lookup (shapeQualityOf parsed.quality) with
          | none => none
          | some shape =>
            voicingForShape fl₁ name (getNoteIndex parsed.root) maxF entry.1
              shape) =
        (match entry.2.lookup (shapeQualityOf parsed.quality) with
          | none => none
          | some shape =>
            voicingForShape fl₂ name (getNoteIndex parsed.root) maxF entry.1
              shape) := by
      intro entry _
      cases hl : entry.2.lookup (shapeQualityOf parsed.quality) with
      | none => rfl
      | some shape =>
        exact voicingForShape_flats_agnostic name (getNoteIndex parsed.root)
          maxF entry.1 shape fl₁ fl₂
    rw [List.filterMap_congr hfun]

/-! ## Claim C10: position ordering inside a voicing -/

/-- C10: in every voicing returned by `generateAllVoicings` the positions
are listed by strictly decreasing string number (from the string-6 side
down toward string 1), so no string number occurs twice and a voicing has
at most 6 positions. -/
theorem C10_positions_strictly_decreasing (flats : Bool) (name : String)
    (maxF : ℤ) (v : Voicing) (hv : v ∈ generateAllVoicings flats name maxF) :
    v.positions.Pairwise (fun p q => q.string < p.string) ∧
    (v.positions.map (fun p => p.string)).Nodup ∧
    v.positions.length ≤ 6 := by
  rcases mem_generateAllVoicings.mp hv with
    ⟨parsed, hp, entry, hentry, shape, hl, hvs⟩
  rcases voicingForShape_some hvs with ⟨hpos, hvalid, hlen3, hname, havg⟩
  have hlen6 : shape.strings.length = 6 :=
    caged_strings_length entry hentry (shapeQualityOf parsed.quality, shape)
      (lookup_mem_pairs _ _ _ hl)
  have hpw := buildPositions_pairwise flats (getNoteIndex parsed.root)
    ((getNoteIndex parsed.root - shapeBaseNoteIndex entry.1 + 12) % 12) maxF
    shape.strings 0
  refine ⟨by rw [hpos]; exact hpw, ?_, ?_⟩
  · rw [hpos]
    have hne : ((buildPositions flats (getNoteIndex parsed.root)
        ((getNoteIndex parsed.root - shapeBaseNoteIndex entry.1 + 12) % 12)
        maxF shape.strings 0).1).Pairwise
          (fun p q => p.string ≠ q.string) :=
      hpw.imp (fun h => by omega)
    exact (List.pairwise_map).mpr hne
  · rw [hpos]
    calc ((buildPositions flats (getNoteIndex parsed.root)
          ((getNoteIndex parsed.root - shapeBaseNoteIndex entry.1 + 12) % 12)
          maxF shape.strings 0).1).length
        ≤ shape.strings.length := buildPositions_length_le _ _ _ _ _ _
      _ = 6 := hlen6

/-- C10 witness: the C-shape voicing of the chord C. -/
theorem C10_witness_Cshape :
    ∃ v ∈ generateAllVoicings false "C" 15,
      v.positions.Pairwise (fun p q => q.string < p.string) ∧
      (v.positions.map (fun p => p.string)).Nodup ∧
      v.positions.length ≤ 6 := by
  refine ⟨⟨"C", "C-shape",
    [⟨5, 3, true⟩, ⟨4, 2, false⟩, ⟨3, 0, false⟩, ⟨2, 1, true⟩, ⟨1, 0, false⟩],
    1, Rat.divInt 6 5, 2⟩, by decide, ?_⟩
  exact C10_positions_strictly_decreasing false "C" 15 _ (by decide)

/-! ## Claim C6: fret and string bounds, maxFret cut-off -/

/-- C6: every voicing returned by `generateAllVoicings` has at least 3
positions, and every position satisfies `0 <= fret <= maxFret` and
`1 <= string <= 6`; a candidate shape in which some transposed fret would
exceed `maxFret` contributes no voicing. -/
theorem C6_voicing_bounds (flats : Bool) (name : String) (maxF : ℤ) :
    (∀ v ∈ generateAllVoicings flats name maxF,
      3 ≤ v.positions.length ∧
      ∀ p ∈ v.positions, 0 ≤ p.fret ∧ p.fret ≤ maxF ∧
        1 ≤ p.string ∧ p.string ≤ 6) ∧
    (∀ ri shapeName shape, (∃ f ∈ CShape.strings shape, 0 ≤ f ∧
        maxF < f + (ri - shapeBaseNoteIndex shapeName + 12) % 12) →
      voicingForShape flats name ri maxF shapeName shape = none) := by
  constructor
  · intro v hv
    rcases mem_generateAllVoicings.mp hv with
      ⟨parsed, hp, entry, hentry, shape, hl, hvs⟩
    rcases voicingForShape_some hvs with ⟨hpos, hvalid, hlen3, hname, havg⟩
    have hlen6 : shape.strings.length = 6 :=
      caged_strings_length entry hentry (shapeQualityOf parsed.quality, shape)
        (lookup_mem_pairs _ _ _ hl)
    refine ⟨hlen3, ?_⟩
    intro p hp'
    rw [hpos] at hp'
    have ht : 0 ≤ (getNoteIndex parsed.root -
        shapeBaseNoteIndex entry.1 + 12) % 12 :=
      Int.emod_nonneg _ (by norm_num)
    have hfret := buildPositions_valid_bounds flats (getNoteIndex parsed.root)
      ((getNoteIndex parsed.root - shapeBaseNoteIndex entry.1 + 12) % 12) maxF
      ht shape.strings 0 hvalid p hp'
    have hstr := buildPositions_string_bounds flats (getNoteIndex parsed.root)
      ((getNoteIndex parsed.root - shapeBaseNoteIndex entry.1 + 12) % 12) maxF
      shape.strings 0 p hp'
    rw [hlen6] at hstr
    refine ⟨hfret.1, hfret.2, ?_, ?_⟩ <;> omega
  · intro ri shapeName shape hex
    have hfalse := buildPositions_invalid flats ri
      ((ri - shapeBaseNoteIndex shapeName + 12) % 12) maxF shape.strings 0 hex
    simp only [voicingForShape]
    rw [hfalse]
    simp

/-- C6 witness: the bounds hold on a voicing of C at maxFret 15, and an
E-shape whose transposed frets exceed maxFret 2 for root C is rejected. -/
theorem C6_witness_bounds :
    (∃ v ∈ generateAllVoicings false "C" 15,
      3 ≤ v.positions.length ∧
      ∀ p ∈ v.positions, 0 ≤ p.fret ∧ p.fret ≤ 15 ∧
        1 ≤ p.string ∧ p.string ≤ 6) ∧
    voicingForShape false "C" 0 2 "E"
      ⟨[0, 2, 2, 1, 0, 0], 6, 0, "E-shape"⟩ = none := by
  constructor
  · refine ⟨⟨"C", "C-shape",
      [⟨5, 3, true⟩, ⟨4, 2, false⟩, ⟨3, 0, false⟩, ⟨2, 1, true⟩,
        ⟨1, 0, false⟩], 1, Rat.divInt 6 5, 2⟩, by decide, ?_⟩
    exact (C6_voicing_bounds false "C" 15).1 _ (by decide)
  · exact (C6_voicing_bounds false "C" 2).2 0 "E"
      ⟨[0, 2, 2, 1, 0, 0], 6, 0, "E-shape"⟩ ⟨2, by decide, by decide, by decide⟩

/-! ## Claim C9: `isRoot` recomputation and flat-mode independence -/

/-- C9: in every returned voicing, a position's `isRoot` flag is true
exactly when the pitch class sounded there — open-string pitch class plus
fret, mod 12 — equals the pitch class of the parsed root, and the whole
output of `generateAllVoicings` is independent of the sharp/flat display
mode. -/
theorem C9_isRoot_recomputed (flats : Bool) (name : String) (maxF : ℤ)
    (c : ChordSymbol) (hc : parseChordName name = some c) :
    (∀ v ∈ generateAllVoicings flats name maxF, ∀ p ∈ v.positions,
      (p.isRoot = true ↔
        (OPEN_STRING_NOTES p.string + p.fret) % 12 = getNoteIndex c.root)) ∧
    (∀ fl₁ fl₂ : Bool, generateAllVoicings fl₁ name maxF =
      generateAllVoicings fl₂ name maxF) := by
  constructor
  · intro v hv p hp'
    rcases mem_generateAllVoicings.mp hv with
      ⟨parsed, hp, entry, hentry, shape, hl, hvs⟩
    rcases voicingForShape_some hvs with ⟨hpos, hvalid, hlen3, hname, havg⟩
    rw [hc] at hp
    injection hp with heq
    subst heq
    rw [hpos] at hp'
    exact buildPositions_isRoot flats (getNoteIndex c.root)
      ((getNoteIndex c.root - shapeBaseNoteIndex entry.1 + 12) % 12) maxF
      shape.strings 0 p hp'
  · intro fl₁ fl₂
    exact generateAllVoicings_flats_agnostic name maxF fl₁ fl₂

/-- C9 witness: the C-shape voicing of the chord C, and the flats flag. -/
theorem C9_witness_Cshape :
    ((⟨5, 3, true⟩ : Position).isRoot = true ↔
      (OPEN_STRING_NOTES 5 + 3) % 12 = getNoteIndex "C") ∧
    generateAllVoicings true "C" 15 = generateAllVoicings false "C" 15 := by
  have h := C9_isRoot_recomputed false "C" 15 ⟨"C", "major", none⟩ (by decide)
  refine ⟨?_, h.2 true false⟩
  exact h.1 ⟨"C", "C-shape",
    [⟨5, 3, true⟩, ⟨4, 2, false⟩, ⟨3, 0, false⟩, ⟨2, 1, true⟩, ⟨1, 0, false⟩]
    , 1, Rat.divInt 6 5, 2⟩ (by decide) ⟨5, 3, true⟩ (by decide)

/-! ## Claim C4 (corrected), amended statement -/

theorem orElse_lookup_some (k mk : String)
    (hfam : CHORD_SHAPES.lookup mk ≠ none) :
    ∃ s : BShape, (CHORD_SHAPES.lookup k).orElse
      (fun _ => CHORD_SHAPES.lookup mk) = some s := by
  cases hl : CHORD_SHAPES.lookup k with
  | none =>
    cases hm : CHORD_SHAPES.lookup mk with
    | none => exact absurd hm hfam
    | some s => exact ⟨s, rfl⟩
  | some s => exact ⟨s, rfl⟩

theorem shapeToPositionsAux_frets (flats : Bool) (root : String) (tp : ℤ) :
    ∀ (l : List ℤ) (idx : ℤ),
      (shapeToPositionsAux flats root tp l idx).map (fun p => p.fret) =
        (l.filter (fun f => decide (0 ≤ f))).map (fun f => f + tp) := by
  intro l
  induction l with
  | nil => intro idx; simp [shapeToPositionsAux]
  | cons f rest ih =>
    intro idx
    simp only [shapeToPositionsAux]
    split_ifs with h1
    · rw [List.filter_cons, if_pos (by simpa using h1)]
      simp only [List.map_cons]
      rw [ih (idx + 1)]
    · rw [List.filter_cons, if_neg (by simpa using h1)]
      exact ih (idx + 1)

/-- C4 amended: for a root outside {E, A, D, G, C}, `findChordShape`
returns the E-family template (for the quality, falling back to E major)
with transpose `dE = (root - E) mod 12` whenever `dE <= 7`, and otherwise
the A-family template with transpose `dA = (root - A) mod 12`; it never
compares `dE` with `dA`.  The chosen transpose is applied by
`shapeToPositions` uniformly to every non-muted string. -/
theorem C4_barre_selection (root quality : String)
    (h : root ∉ (["E", "A", "D", "G", "C"] : List String)) :
    (∃ s : ShapeWithTranspose,
      findChordShape root quality = some s ∧
      (((getNoteIndex root - getNoteIndex "E" + 12) % 12 ≤ 7 ∧
        s.transpose = (getNoteIndex root - getNoteIndex "E" + 12) % 12 ∧
        (CHORD_SHAPES.lookup ("E_" ++ qualityToShape quality)).orElse
          (fun _ => CHORD_SHAPES.lookup "E_major") =
            some ⟨s.strings, s.rootString, s.baseFret⟩) ∨
       (7 < (getNoteIndex root - getNoteIndex "E" + 12) % 12 ∧
        s.transpose = (getNoteIndex root - getNoteIndex "A" + 12) % 12 ∧
        (CHORD_SHAPES.lookup ("A_" ++ qualityToShape quality)).orElse
          (fun _ => CHORD_SHAPES.lookup "A_major") =
            some ⟨s.strings, s.rootString, s.baseFret⟩))) ∧
    (∀ (flats : Bool) (s : ShapeWithTranspose) (r : String),
      (shapeToPositions flats s r).map (fun p => p.fret) =
        (s.strings.filter (fun f => decide (0 ≤ f))).map
          (fun f => f + s.transpose)) := by
  constructor
  · have hc : (["E", "A", "D", "G", "C"] : List String).contains root = false := by
      rw [List.contains_eq_any_beq]
      simp only [List.any_eq_false, beq_iff_eq]
      intro x hx
      intro he
      exact h (he ▸ hx)
    simp only [findChordShape, hc, Bool.false_eq_true, if_false]
    simp only [findChordShapeBarre]
    by_cases hE : (getNoteIndex root - getNoteIndex "E" + 12) % 12 ≤ 7
    · rw [if_pos hE]
      rcases orElse_lookup_some ("E_" ++ qualityToShape quality) "E_major"
        (by decide) with ⟨s0, hs0⟩
      refine ⟨⟨s0.strings, s0.rootString, s0.baseFret,
        (getNoteIndex root - getNoteIndex "E" + 12) % 12⟩, ?_, ?_⟩
      · rw [hs0]
      · exact Or.inl ⟨hE, rfl, hs0⟩
    · rw [if_neg hE]
      rcases orElse_lookup_some ("A_" ++ qualityToShape quality) "A_major"
        (by decide) with ⟨s0, hs0⟩
      refine ⟨⟨s0.strings, s0.rootString, s0.baseFret,
        (getNoteIndex root - getNoteIndex "A" + 12) % 12⟩, ?_, ?_⟩
      · rw [hs0]
      · exact Or.inr ⟨by omega, rfl, hs0⟩
  · intro flats s r
    exact shapeToPositionsAux_frets flats r s.transpose s.strings 0

/-- C4 witness: the amended statement evaluated at root A#, quality
major. -/
theorem C4_witness_Asharp :
    (∃ s : ShapeWithTranspose,
      findChordShape "A#" "major" = some s ∧
      (((getNoteIndex "A#" - getNoteIndex "E" + 12) % 12 ≤ 7 ∧
        s.transpose = (getNoteIndex "A#" - getNoteIndex "E" + 12) % 12 ∧
        (CHORD_SHAPES.lookup ("E_" ++ qualityToShape "major")).orElse
          (fun _ => CHORD_SHAPES.lookup "E_major") =
            some ⟨s.strings, s.rootString, s.baseFret⟩) ∨
       (7 < (getNoteIndex "A#" - getNoteIndex "E" + 12) % 12 ∧
        s.transpose = (getNoteIndex "A#" - getNoteIndex "A" + 12) % 12 ∧
        (CHORD_SHAPES.lookup ("A_" ++ qualityToShape "major")).orElse
          (fun _ => CHORD_SHAPES.lookup "A_major") =
            some ⟨s.strings, s.rootString, s.baseFret⟩))) ∧
    (∀ (flats : Bool) (s : ShapeWithTranspose) (r : String),
      (shapeToPositions flats s r).map (fun p => p.fret) =
        (s.strings.filter (fun f => decide (0 ≤ f))).map
          (fun f => f + s.transpose)) :=
  C4_barre_selection "A#" "major" (by decide)

/-! ## Claim C8 (corrected), amended statement -/

/-- C8 amended: `parseChordName` returns `none` exactly when the trimmed
input is empty, does not begin with a root letter A–G (either case), or
contains a line terminator after its first character (the regex dot
cannot cross one); when no quality rule matches, the quality defaults to
major; and `generateAllVoicings` returns `[]`, never an exception, when
chord parsing fails. -/
theorem C8_parser_totality :
    (∀ s : String, parseChordName s = none ↔
      ((jsTrim s).toList = [] ∨
       (∃ c rest, (jsTrim s).toList = c :: rest ∧
         (isRootLetter c = false ∨ ∃ ch ∈ rest, isLineTerminator ch = true)))) ∧
    (∀ q : List Char, (∀ r ∈ qualityPatterns, r.1 q = false) →
      classifyQuality q = "major") ∧
    (∀ (flats : Bool) (s : String) (maxF : ℤ), parseChordName s = none →
      generateAllVoicings flats s maxF = []) := by
  refine ⟨?_, ?_, ?_⟩
  · intro s
    by_cases h0 : s = ""
    · subst h0
      exact ⟨fun _ => Or.inl (by decide), fun _ => by decide⟩
    · unfold parseChordName
      rw [if_neg h0]
      cases ht : (jsTrim s).toList with
      | nil => simp only [true_iff]; exact Or.inl trivial
      | cons c rest =>
        dsimp only
        by_cases hcond :
            (isRootLetter c && rest.all fun ch => !(isLineTerminator ch)) = true
        · rw [if_pos hcond]
          simp only [Bool.and_eq_true, List.all_eq_true] at hcond
          constructor
          · intro hsome
            exact absurd hsome (by simp)
          · rintro (hnil | ⟨c₂, rest₂, heq, hbad⟩)
            · exact absurd hnil (by simp)
            · injection heq with hc₂ hrest₂
              subst hc₂
              subst hrest₂
              rcases hbad with hroot | ⟨ch, hch, hterm⟩
              · rw [hcond.1] at hroot
                exact absurd hroot (by simp)
              · have := hcond.2 ch hch
                rw [hterm] at this
                exact absurd this (by simp)
        · rw [if_neg hcond]
          refine ⟨fun _ => ?_, fun _ => rfl⟩
          right
          refine ⟨c, rest, rfl, ?_⟩
          by_cases hroot : isRootLetter c = true
          · right
            have hall : (rest.all fun ch => !(isLineTerminator ch)) = false := by
              cases hab : (rest.all fun ch => !(isLineTerminator ch)) with
              | false => rfl
              | true => exact absurd (by rw [hroot, hab]; rfl) hcond
            rcases List.all_eq_false.mp hall with ⟨ch, hch, hneg⟩
            refine ⟨ch, hch, ?_⟩
            simpa using hneg
          · left
            simpa using hroot
  · intro q hq
    unfold classifyQuality
    rw [List.find?_eq_none.mpr ?_]
    intro r hr
    rw [hq r hr]
    simp
  · intro flats s maxF hnone
    simp [generateAllVoicings, hnone]

/-- C8 witness: the default-to-major rule at an unmatched quality string
and the empty voicing list for an unparseable chord. -/
theorem C8_witness_totality :
    classifyQuality "xyz".toList = "major" ∧
    generateAllVoicings false "Hmaj" 15 = [] := by
  constructor
  · exact C8_parser_totality.2.1 "xyz".toList (by decide)
  · exact C8_parser_totality.2.2 false "Hmaj" 15 (by decide)

/-! ## Claim C5: sort order of `generateAllVoicings` -/

theorem sum_map_add_const (t : ℤ) :
    ∀ xs : List ℤ, (xs.map (fun f => f + t)).sum = xs.sum + t * xs.length := by
  intro xs
  induction xs with
  | nil => simp
  | cons x xs ih =>
    simp only [List.map_cons, List.sum_cons, List.length_cons, ih]
    push_cast
    ring

/-- The exact average fret of a voicing produced by one CAGED template:
the template's sounded-fret sum plus transpose times the sounded count,
divided by the sounded count. -/
theorem voicingForShape_avg {flats : Bool} {name : String} {ri maxF : ℤ}
    {shapeName : String} {shape : CShape} {v : Voicing}
    (h : voicingForShape flats name ri maxF shapeName shape = some v) :
    v.avgFret = Rat.divInt
      ((shape.strings.filter (fun f => decide (0 ≤ f))).sum +
        ((ri - shapeBaseNoteIndex shapeName + 12) % 12) *
          (shape.strings.filter (fun f => decide (0 ≤ f))).length)
      ((shape.strings.filter (fun f => decide (0 ≤ f))).length) := by
  rcases voicingForShape_some h with ⟨hpos, hvalid, hlen3, hname, havg⟩
  have hfrets := buildPositions_frets_of_valid flats ri
    ((ri - shapeBaseNoteIndex shapeName + 12) % 12) maxF shape.strings 0 hvalid
  have hlen := congrArg List.length hfrets
  rw [List.length_map, List.length_map] at hlen
  rw [havg, hpos, hfrets, sum_map_add_const, hlen]

/-- The average fret a CAGED family entry would contribute for a given
shape quality and root index, `none` when the family lacks the quality. -/
def famAvgOpt (entry : String × List (String × CShape)) (q : String)
    (ri : ℤ) : Option ℚ :=
  (entry.2.lookup q).map (fun shape =>
    Rat.divInt
      ((shape.strings.filter (fun f => decide (0 ≤ f))).sum +
        ((ri - shapeBaseNoteIndex entry.1 + 12) % 12) *
          (shape.strings.filter (fun f => decide (0 ≤ f))).length)
      ((shape.strings.filter (fun f => decide (0 ≤ f))).length))

/-- No two distinct CAGED families ever produce the same average fret, for
any root index reachable from `getNoteIndex` and any supported shape
quality: an exhaustive check over the 13 root indices, 5 qualities and
family pairs. -/
theorem famAvg_distinct :
    ∀ ri ∈ Finset.Icc (-1 : ℤ) 11,
      ∀ q ∈ (["major", "minor", "7", "m7", "maj7"] : List String),
        ∀ e₁ ∈ CAGED_SHAPES, ∀ e₂ ∈ CAGED_SHAPES, e₁.1 ≠ e₂.1 →
          famAvgOpt e₁ q ri ≠ famAvgOpt e₂ q ri := by decide

theorem getNoteIndex_range (s : String) :
    -1 ≤ getNoteIndex s ∧ getNoteIndex s ≤ 11 := by
  unfold getNoteIndex
  cases hl : noteMap.lookup s with
  | none => simp
  | some v =>
    have hmem := lookup_mem_pairs _ _ _ hl
    have hall : ∀ p ∈ noteMap, -1 ≤ p.2 ∧ p.2 ≤ 11 := by decide
    simpa using hall _ hmem

theorem shapeQualityOf_mem (q : String) :
    shapeQualityOf q ∈ (["major", "minor", "7", "m7", "maj7"] : List String) := by
  unfold shapeQualityOf
  cases hl : qualityMap.lookup q with
  | none => simp
  | some v =>
    have hmem := lookup_mem_pairs _ _ _ hl
    have hall : ∀ p ∈ qualityMap,
        p.2 ∈ (["major", "minor", "7", "m7", "maj7"] : List String) := by decide
    simpa using hall _ hmem

/-- Any two voicings returned by one `generateAllVoicings` call have
distinct average frets. -/
theorem generateAllVoicings_avg_pairwise_ne (flats : Bool) (name : String)
    (maxF : ℤ) :
    (generateAllVoicings flats name maxF).Pairwise
      (fun a b => a.avgFret ≠ b.avgFret) := by
  simp only [generateAllVoicings]
  cases hp : parseChordName name with
  | none => simp
  | some parsed =>
    dsimp only
    refine List.Pairwise.perm ?_ (List.perm_insertionSort _ _).symm
      (fun hxy heq => hxy heq.symm)
    rw [List.pairwise_filterMap]
    have hbase : CAGED_SHAPES.Pairwise (fun e₁ e₂ =>
        e₁ ∈ CAGED_SHAPES ∧ e₂ ∈ CAGED_SHAPES ∧ e₁.1 ≠ e₂.1) := by decide
    refine hbase.imp (fun h => ?_)
    rename_i e₁ e₂
    obtain ⟨h₁, h₂, hne⟩ := h
    intro v hv w hw
    cases hl₁ : e₁.2.lookup (shapeQualityOf parsed.quality) with
    | none => rw [hl₁] at hv; simp at hv
    | some s₁ =>
      cases hl₂ : e₂.2.lookup (shapeQualityOf parsed.quality) with
      | none => rw [hl₂] at hw; simp at hw
      | some s₂ =>
        rw [hl₁] at hv
        rw [hl₂] at hw
        have hv' : voicingForShape flats name (getNoteIndex parsed.root) maxF
            e₁.1 s₁ = some v := Option.mem_def.mp hv
        have hw' : voicingForShape flats name (getNoteIndex parsed.root) maxF
            e₂.1 s₂ = some w := Option.mem_def.mp hw
        have hA := voicingForShape_avg hv'
        have hB := voicingForShape_avg hw'
        have hr := getNoteIndex_range parsed.root
        have hd := famAvg_distinct (getNoteIndex parsed.root)
          (Finset.mem_Icc.mpr ⟨hr.1, hr.2⟩) (shapeQualityOf parsed.quality)
          (shapeQualityOf_mem parsed.quality) e₁ h₁ e₂ h₂ hne
        rw [famAvgOpt, famAvgOpt, hl₁, hl₂] at hd
        simp only [Option.map_some'] at hd
        intro heq
        apply hd
        apply congrArg some
        rw [← hA, ← hB]
        exact heq

instance instIsTotalVoicingAvgLe :
    IsTotal Voicing (fun a b => a.avgFret ≤ b.avgFret) :=
  ⟨fun a b => le_total a.avgFret b.avgFret⟩

instance instIsTransVoicingAvgLe :
    IsTrans Voicing (fun a b => a.avgFret ≤ b.avgFret) :=
  ⟨fun _ _ _ h₁ h₂ => le_trans h₁ h₂⟩

/-- The family order the claim asserts for ties: E, A, D, G, C. -/
def famRank (shapeName : String) : ℕ :=
  if shapeName = "E-shape" then 0
  else if shapeName = "A-shape" then 1
  else if shapeName = "D-shape" then 2
  else if shapeName = "G-shape" then 3
  else 4

/-- C5: the list returned by `generateAllVoicings` is sorted
non-decreasing by `avgFret`, and any two voicings with equal `avgFret`
appear in the family order E, A, D, G, C (vacuously so: distinct families
never produce equal average frets, as `generateAllVoicings_avg_pairwise_ne`
shows). -/
theorem C5_sorted_and_tie_order (flats : Bool) (name : String) (maxF : ℤ) :
    ((generateAllVoicings flats name maxF).Sorted
      (fun a b => a.avgFret ≤ b.avgFret)) ∧
    ((generateAllVoicings flats name maxF).Pairwise (fun a b =>
      a.avgFret = b.avgFret → famRank a.shapeName < famRank b.shapeName)) := by
  constructor
  · simp only [generateAllVoicings]
    cases hp : parseChordName name with
    | none => simp
    | some parsed =>
      dsimp only
      exact List.sorted_insertionSort _ _
  · exact (generateAllVoicings_avg_pairwise_ne flats name maxF).imp
      (fun hne heq => absurd heq hne)

/-! ## C1: optimality of the dynamic-programming optimizer -/

/-- Sum of movement costs along a forward path starting after `p`. -/
def movesCost : Voicing → List Voicing → ℚ
  | _, [] => 0
  | p, v :: vs => calculateMovementCost p v + movesCost v vs

/-- The objective of the claim: distance of the first voicing's average
fret from the preferred fret, plus the movement costs of the consecutive
pairs. -/
def totalCost (preferredFret : ℚ) : List Voicing → ℚ
  | [] => 0
  | v :: vs => |v.avgFret - preferredFret| + movesCost v vs

/-- The cost of a reversed path as the DP stores it: head is the current
voicing, the tail its predecessors back to the first layer. -/
def revCost (preferredFret : ℚ) : Voicing → List Voicing → ℚ
  | h, [] => |h.avgFret - preferredFret|
  | h, p :: ps => revCost preferredFret p ps + calculateMovementCost p h

theorem movesCost_append_last (h : Voicing) :
    ∀ (vs : List Voicing) (p : Voicing),
      movesCost p (vs ++ [h]) =
        movesCost p vs + calculateMovementCost (vs.getLastD p) h := by
  intro vs
  induction vs with
  | nil =>
    intro p
    simp [movesCost, List.getLastD]
  | cons v vs ih =>
    intro p
    simp only [List.cons_append, movesCost, List.append_eq]
    rw [ih v, List.getLastD_cons]
    ring

theorem revCost_eq_totalCost (pf : ℚ) :
    ∀ (ps : List Voicing) (h : Voicing),
      revCost pf h ps = totalCost pf ((h :: ps).reverse) := by
  intro ps
  induction ps with
  | nil =>
    intro h
    simp [revCost, totalCost, movesCost]
  | cons p ps ih =>
    intro h
    rw [revCost, ih p]
    have h1 : (h :: p :: ps).reverse = (p :: ps).reverse ++ [h] := by
      simp
    rw [h1]
    rcases hrev : (p :: ps).reverse with _ | ⟨x, xs⟩
    · exact absurd hrev (by simp)
    · rw [List.cons_append,
        show totalCost pf (x :: (xs ++ [h]))
          = |x.avgFret - pf| + movesCost x (xs ++ [h]) from rfl,
        show totalCost pf (x :: xs)
          = |x.avgFret - pf| + movesCost x xs from rfl,
        movesCost_append_last h xs x]
      have h2 : (x :: xs).getLast? = some p := by
        rw [← hrev, List.getLast?_reverse]
        rfl
      have h3 : xs.getLastD x = p := by
        have := List.getLast?_cons (a := x) (l := xs)
        rw [h2] at this
        rw [List.getLastD_eq_getLast?]
        cases hxs : xs.getLast? with
        | none =>
          rw [hxs] at this
          simpa using this.symm
        | some y =>
          rw [hxs] at this
          simpa using this.symm
      rw [h3]
      ring

/-- Generic account of the left folds the optimizer uses to take minima:
folding `if key x < proj acc then val x else acc` returns either the
initial accumulator or the value of some element, never increases the
projection, and ends at or below every element's key. -/
theorem foldl_select {α β γ : Type} [LinearOrder γ] (key : α → γ)
    (val : α → β) (proj : β → γ) (hval : ∀ x, proj (val x) = key x) :
    ∀ (xs : List α) (acc : β),
      (xs.foldl (fun a x => if key x < proj a then val x else a) acc = acc ∨
        ∃ x ∈ xs,
          xs.foldl (fun a x => if key x < proj a then val x else a) acc
            = val x) ∧
      proj (xs.foldl (fun a x => if key x < proj a then val x else a) acc)
        ≤ proj acc ∧
      ∀ x ∈ xs,
        proj (xs.foldl (fun a x => if key x < proj a then val x else a) acc)
          ≤ key x := by
  intro xs
  induction xs with
  | nil =>
    intro acc
    exact ⟨Or.inl rfl, le_refl _, by simp⟩
  | cons y ys ih =>
    intro acc
    simp only [List.foldl_cons]
    rcases ih (if key y < proj acc then val y else acc) with ⟨hmem, hle, hall⟩
    refine ⟨?_, ?_, ?_⟩
    · rcases hmem with heq | ⟨x, hx, heq⟩
      · by_cases hy : key y < proj acc
        · right
          exact ⟨y, List.mem_cons_self _ _, by rw [heq, if_pos hy]⟩
        · left
          rw [heq, if_neg hy]
      · right
        exact ⟨x, List.mem_cons_of_mem _ hx, heq⟩
    · refine le_trans hle ?_
      by_cases hy : key y < proj acc
      · rw [if_pos hy, hval]
        exact le_of_lt hy
      · rw [if_neg hy]
    · intro x hx
      rcases List.mem_cons.mp hx with rfl | hmem'
      · refine le_trans hle ?_
        by_cases hy : key x < proj acc
        · rw [if_pos hy, hval]
        · rw [if_neg hy]
          exact le_of_not_lt hy
      · exact hall x hmem'

/-- `dpStep` written with the inner `let` unfolded, so `foldl_select`
applies syntactically. -/
theorem dpStep_eq_map (prev : List DPCell) (layer : List Voicing) :
    dpStep prev layer = layer.map (fun v =>
      prev.foldl (fun acc cell =>
        if cell.1 + ((calculateMovementCost cell.2.1 v : ℚ) : WithTop ℚ)
            < acc.1
        then (cell.1 + ((calculateMovementCost cell.2.1 v : ℚ) : WithTop ℚ),
          v, cell.2.1 :: cell.2.2)
        else acc) ((⊤ : WithTop ℚ), v, ([] : List Voicing))) := rfl

theorem dpFold_spec (v : Voicing) (cells : List DPCell) :
    (cells.foldl (fun acc cell =>
        if cell.1 + ((calculateMovementCost cell.2.1 v : ℚ) : WithTop ℚ)
            < acc.1
        then (cell.1 + ((calculateMovementCost cell.2.1 v : ℚ) : WithTop ℚ),
          v, cell.2.1 :: cell.2.2)
        else acc) ((⊤ : WithTop ℚ), v, ([] : List Voicing))
        = ((⊤ : WithTop ℚ), v, ([] : List Voicing)) ∨
      ∃ x ∈ cells,
        cells.foldl (fun acc cell =>
          if cell.1 + ((calculateMovementCost cell.2.1 v : ℚ) : WithTop ℚ)
              < acc.1
          then (cell.1 + ((calculateMovementCost cell.2.1 v : ℚ) : WithTop ℚ),
            v, cell.2.1 :: cell.2.2)
          else acc) ((⊤ : WithTop ℚ), v, ([] : List Voicing))
          = (x.1 + ((calculateMovementCost x.2.1 v : ℚ) : WithTop ℚ), v,
            x.2.1 :: x.2.2)) ∧
    ∀ x ∈ cells,
      (cells.foldl (fun acc cell =>
        if cell.1 + ((calculateMovementCost cell.2.1 v : ℚ) : WithTop ℚ)
            < acc.1
        then (cell.1 + ((calculateMovementCost cell.2.1 v : ℚ) : WithTop ℚ),
          v, cell.2.1 :: cell.2.2)
        else acc) ((⊤ : WithTop ℚ), v, ([] : List Voicing))).1
        ≤ x.1 + ((calculateMovementCost x.2.1 v : ℚ) : WithTop ℚ) := by
  have hsel := foldl_select
    (fun cell : DPCell =>
      cell.1 + ((calculateMovementCost cell.2.1 v : ℚ) : WithTop ℚ))
    (fun cell : DPCell =>
      (cell.1 + ((calculateMovementCost cell.2.1 v : ℚ) : WithTop ℚ), v,
        cell.2.1 :: cell.2.2))
    Prod.fst (fun _ => rfl) cells ((⊤ : WithTop ℚ), v, ([] : List Voicing))
  exact ⟨hsel.1, hsel.2.2⟩

/-- The invariant of the DP over the layers processed so far, given in
reverse order (current layer first): there is at least one cell; every
cell's stored path picks one voicing from each processed layer and its
stored cost is exactly the reversed-path cost; and every way of picking
one voicing per processed layer is dominated by some cell whose head
agrees. -/
def DPInv (pf : ℚ) (rlayers : List (List Voicing))
    (cells : List DPCell) : Prop :=
  cells ≠ [] ∧
  (∀ cell ∈ cells,
    List.Forall₂ (fun l v => v ∈ l) rlayers (cell.2.1 :: cell.2.2) ∧
    cell.1 = ((revCost pf cell.2.1 cell.2.2 : ℚ) : WithTop ℚ)) ∧
  (∀ h rest, List.Forall₂ (fun l v => v ∈ l) rlayers (h :: rest) →
    ∃ cell ∈ cells, cell.2.1 = h ∧
      cell.1 ≤ ((revCost pf h rest : ℚ) : WithTop ℚ))

theorem dpInit_inv (pf : ℚ) (first : List Voicing) (hne : first ≠ []) :
    DPInv pf [first] (dpInit pf first) := by
  refine ⟨?_, ?_, ?_⟩
  · intro habs
    apply hne
    simpa [dpInit] using habs
  · intro cell hcell
    rcases List.mem_map.mp hcell with ⟨v, hv, rfl⟩
    exact ⟨List.Forall₂.cons hv List.Forall₂.nil, rfl⟩
  · intro h rest hsel
    cases hsel with
    | cons hh htail =>
      cases htail
      exact ⟨(((|h.avgFret - pf| : ℚ) : WithTop ℚ), h, []),
        List.mem_map.mpr ⟨h, hh, rfl⟩, rfl, le_refl _⟩

theorem dpStep_inv (pf : ℚ) (rlayers : List (List Voicing))
    (cells : List DPCell) (L : List Voicing) (hL : L ≠ [])
    (hrl : rlayers ≠ []) (hinv : DPInv pf rlayers cells) :
    DPInv pf (L :: rlayers) (dpStep cells L) := by
  obtain ⟨hne, hcells, hdom⟩ := hinv
  rw [dpStep_eq_map]
  refine ⟨?_, ?_, ?_⟩
  · intro habs
    apply hL
    simpa using habs
  · intro cell hcell
    rcases List.mem_map.mp hcell with ⟨v, hvL, rfl⟩
    rcases (dpFold_spec v cells).1 with heq | ⟨x, hx, heq⟩
    · exfalso
      rcases List.exists_mem_of_ne_nil cells hne with ⟨c0, hc0⟩
      have hb := (dpFold_spec v cells).2 c0 hc0
      rw [heq] at hb
      rcases hcells c0 hc0 with ⟨-, hc0cost⟩
      rw [hc0cost, ← WithTop.coe_add] at hb
      exact WithTop.not_top_le_coe _ hb
    · rcases hcells x hx with ⟨hxsel, hxcost⟩
      rw [heq]
      refine ⟨List.Forall₂.cons hvL hxsel, ?_⟩
      show x.1 + ((calculateMovementCost x.2.1 v : ℚ) : WithTop ℚ)
        = ((revCost pf v (x.2.1 :: x.2.2) : ℚ) : WithTop ℚ)
      rw [hxcost, ← WithTop.coe_add]
      norm_cast
  · intro h rest hsel
    cases hsel with
    | cons hh htail =>
      rcases rest with _ | ⟨p, ps⟩
      · exfalso
        apply hrl
        cases htail
        rfl
      · rcases hdom p ps htail with ⟨cell, hcm, hch, hcc⟩
        refine ⟨_, List.mem_map.mpr ⟨h, hh, rfl⟩, ?_, ?_⟩
        · rcases (dpFold_spec h cells).1 with heq | ⟨x, hx, heq⟩ <;>
            rw [heq]
        · have hb := (dpFold_spec h cells).2 cell hcm
          rw [hch] at hb
          refine le_trans hb ?_
          have h2 : cell.1 + ((calculateMovementCost p h : ℚ) : WithTop ℚ)
              ≤ ((revCost pf p ps : ℚ) : WithTop ℚ)
                + ((calculateMovementCost p h : ℚ) : WithTop ℚ) :=
            add_le_add_right hcc _
          refine le_trans h2 ?_
          rw [← WithTop.coe_add]
          exact le_of_eq (by norm_cast)

theorem dpFoldl_inv (pf : ℚ) :
    ∀ (rest : List (List Voicing)) (rlayers : List (List Voicing))
      (cells : List DPCell), rlayers ≠ [] → (∀ l ∈ rest, l ≠ []) →
      DPInv pf rlayers cells →
      DPInv pf (rest.reverse ++ rlayers) (rest.foldl dpStep cells) := by
  intro rest
  induction rest with
  | nil =>
    intro rlayers cells _ _ hinv
    simpa using hinv
  | cons L rest ih =>
    intro rlayers cells hrl hr hinv
    have h1 := dpStep_inv pf rlayers cells L
      (hr L (List.mem_cons_self _ _)) hrl hinv
    have h2 := ih (L :: rlayers) (dpStep cells L) (by simp)
      (fun l hl => hr l (List.mem_cons_of_mem _ hl)) h1
    simpa [List.reverse_cons, List.append_assoc] using h2

/-- C1: on a non-empty progression in which every chord's candidate layer
(the window-filtered voicings, the unfiltered list as fallback) is
non-empty, `optimizeProgression` succeeds, returns one voicing per chord,
picks each voicing from that chord's candidate layer, and the returned
sequence minimises `|avgFret(first) - preferredFret|` plus the sum of
`calculateMovementCost` over consecutive pairs among all ways of choosing
one candidate per chord. -/
theorem C1_optimizeProgression_optimal (flats : Bool)
    (chordNames : List String) (pf fr : ℚ)
    (hne : chordNames ≠ [])
    (hcand : ∀ l ∈ candidateLayers flats chordNames pf fr, l ≠ []) :
    ∃ result, optimizeProgression flats chordNames pf fr = some result ∧
      result.length = chordNames.length ∧
      List.Forall₂ (fun l v => v ∈ l)
        (candidateLayers flats chordNames pf fr) result ∧
      ∀ sel, List.Forall₂ (fun l v => v ∈ l)
        (candidateLayers flats chordNames pf fr) sel →
        totalCost pf result ≤ totalCost pf sel := by
  have hlen : (candidateLayers flats chordNames pf fr).length
      = chordNames.length := List.length_map _ _
  by_cases h0 : chordNames.length = 0
  · exact absurd (List.length_eq_zero.mp h0) hne
  by_cases h1 : chordNames.length = 1
  · -- single-chord branch: a plain minimum over the one candidate layer
    obtain ⟨c, rfl⟩ := List.length_eq_one.mp h1
    obtain ⟨cand, hcl⟩ : ∃ cand,
        candidateLayers flats [c] pf fr = [cand] := ⟨_, rfl⟩
    have hcne : cand ≠ [] := hcand cand (by
      rw [hcl]
      exact List.mem_cons_self _ _)
    rcases hvvs : cand with _ | ⟨v, vs⟩
    · exact absurd hvvs hcne
    have hsel := foldl_select (fun w : Voicing => |w.avgFret - pf|) id
      (fun w : Voicing => |w.avgFret - pf|) (fun _ => rfl) vs v
    obtain ⟨res, hres⟩ : ∃ res, vs.foldl (fun best w =>
        if |w.avgFret - pf| < |best.avgFret - pf| then w else best) v
          = res := ⟨_, rfl⟩
    have hmem : res = v ∨ ∃ x ∈ vs, res = x := by
      rw [← hres]
      exact hsel.1
    have hub : ∀ w ∈ cand, |res.avgFret - pf| ≤ |w.avgFret - pf| := by
      intro w hw
      rw [hvvs] at hw
      rcases List.mem_cons.mp hw with rfl | hw'
      · rw [← hres]
        exact hsel.2.1
      · rw [← hres]
        exact hsel.2.2 w hw'
    have hresmem : res ∈ cand := by
      rw [hvvs]
      rcases hmem with rfl | ⟨x, hx, rfl⟩
      · exact List.mem_cons_self _ _
      · exact List.mem_cons_of_mem _ hx
    have hopt : optimizeProgression flats [c] pf fr = some [res] := by
      simp only [optimizeProgression]
      rw [if_neg (by simp), if_pos (by simp)]
      rw [hcl]
      simp only [List.headD_cons]
      rw [hvvs]
      dsimp only
      rw [hres]
    refine ⟨[res], hopt, rfl, ?_, ?_⟩
    · rw [hcl]
      exact List.Forall₂.cons hresmem List.Forall₂.nil
    · intro sel hselfa
      rw [hcl] at hselfa
      cases hselfa with
      | cons hw htail =>
        cases htail
        simp only [totalCost, movesCost, add_zero]
        exact hub _ hw
  · -- at least two chords: the DP invariant carries the optimality
    have h2 : 2 ≤ chordNames.length := by omega
    rcases hcl : candidateLayers flats chordNames pf fr
      with _ | ⟨first, restLayers⟩
    · exfalso
      rw [hcl] at hlen
      simp at hlen
      omega
    have hfirstne : first ≠ [] := hcand first (by
      rw [hcl]
      exact List.mem_cons_self _ _)
    have hrestne : ∀ l ∈ restLayers, l ≠ [] := fun l hl =>
      hcand l (by
        rw [hcl]
        exact List.mem_cons_of_mem _ hl)
    obtain ⟨hdpne, hdpcells, hdpdom⟩ :=
      dpFoldl_inv pf restLayers [first] (dpInit pf first)
        (by simp) hrestne (dpInit_inv pf first hfirstne)
    rcases hfc : restLayers.foldl dpStep (dpInit pf first) with _ | ⟨c0, cs⟩
    · exact absurd hfc hdpne
    rw [hfc] at hdpcells hdpdom
    have hsel := foldl_select (fun cell : DPCell => cell.1) id
      (fun cell : DPCell => cell.1) (fun _ => rfl) cs c0
    obtain ⟨best, hbest⟩ : ∃ best, cs.foldl (fun b cell =>
        if cell.1 < b.1 then cell else b) c0 = best := ⟨_, rfl⟩
    have hbmem : best = c0 ∨ ∃ x ∈ cs, best = x := by
      rw [← hbest]
      exact hsel.1
    have hble : ∀ x ∈ c0 :: cs, best.1 ≤ x.1 := by
      intro x hx
      rcases List.mem_cons.mp hx with rfl | hx'
      · rw [← hbest]
        exact hsel.2.1
      · rw [← hbest]
        exact hsel.2.2 x hx'
    have hbestmem : best ∈ c0 :: cs := by
      rcases hbmem with rfl | ⟨x, hx, rfl⟩
      · exact List.mem_cons_self _ _
      · exact List.mem_cons_of_mem _ hx
    obtain ⟨hbsel, hbcost⟩ := hdpcells best hbestmem
    have hopt : optimizeProgression flats chordNames pf fr
        = some ((best.2.1 :: best.2.2).reverse) := by
      simp only [optimizeProgression]
      rw [if_neg h0, if_neg h1]
      have hany : (candidateLayers flats chordNames pf fr).any
          (fun l => l.isEmpty) = false := by
        rw [List.any_eq_false]
        intro l hl
        simpa [List.isEmpty_iff] using hcand l hl
      rw [hany]
      simp only [Bool.false_eq_true, if_false]
      rw [hcl]
      dsimp only
      rw [hfc]
      dsimp only
      rw [hbest]
    have hfa : List.Forall₂ (fun l v => v ∈ l) (first :: restLayers)
        ((best.2.1 :: best.2.2).reverse) := by
      apply List.forall₂_reverse_iff.mp
      rw [List.reverse_reverse, List.reverse_cons]
      exact hbsel
    refine ⟨(best.2.1 :: best.2.2).reverse, hopt, ?_, ?_, ?_⟩
    · rw [hcl] at hlen
      rw [← List.Forall₂.length_eq hfa]
      exact hlen
    · exact hfa
    · intro sel hselfa
      have hslen := hselfa.length_eq
      rcases hsrev : sel.reverse with _ | ⟨sh, srest⟩
      · exfalso
        have hsnil : sel = [] := by
          have := congrArg List.reverse hsrev
          simpa using this
        rw [hsnil] at hslen
        simp at hslen
      · have hsel2 : List.Forall₂ (fun l v => v ∈ l)
            (restLayers.reverse ++ [first]) (sh :: srest) := by
          rw [← List.reverse_cons, ← hsrev]
          exact List.forall₂_reverse_iff.mpr hselfa
        rcases hdpdom sh srest hsel2 with ⟨cell, hcm, hch, hcc⟩
        have hle : ((revCost pf best.2.1 best.2.2 : ℚ) : WithTop ℚ)
            ≤ ((revCost pf sh srest : ℚ) : WithTop ℚ) := by
          rw [← hbcost]
          exact le_trans (hble cell hcm) hcc
        have hleq : revCost pf best.2.1 best.2.2 ≤ revCost pf sh srest := by
          exact_mod_cast hle
        rw [revCost_eq_totalCost, revCost_eq_totalCost] at hleq
        have hselrev : (sh :: srest).reverse = sel := by
          rw [← hsrev, List.reverse_reverse]
        rw [hselrev] at hleq
        exact hleq

theorem C1_witness :
    ((["C", "G"] : List String) ≠ [] ∧
      ∀ l ∈ candidateLayers false ["C", "G"] 5 7, l ≠ []) ∧
    (∃ result, optimizeProgression false ["C", "G"] 5 7 = some result ∧
      result.length = (["C", "G"] : List String).length ∧
      List.Forall₂ (fun l v => v ∈ l)
        (candidateLayers false ["C", "G"] 5 7) result ∧
      ∀ sel, List.Forall₂ (fun l v => v ∈ l)
        (candidateLayers false ["C", "G"] 5 7) sel →
        totalCost 5 result ≤ totalCost 5 sel) :=
  ⟨⟨by decide, by decide⟩,
    C1_optimizeProgression_optimal false ["C", "G"] 5 7 (by decide)
      (by decide)⟩
